import Mathlib

/-!
Verification of the `imagepull` repository (two Python scripts:
`download_gbif_mushroom_images.py` and `download_species_images.py`)
against its natural-language specification.

Modelling conventions:
* Python strings are sequences of code points; they are embedded as `List Char`.
* Case mapping (`str.lower`, `str.upper`) is embedded for the ASCII range,
  which covers every character the scripts manipulate.
* HTTP backends and the filesystem are embedded as explicit environments and
  effect traces; network requests never run here.
-/

set_option maxHeartbeats 1000000

/-- Characters treated as whitespace by Python's `str.strip()` (ASCII part,
plus the common unicode space characters). -/
def isPySpace (c : Char) : Bool :=
  c = ' ' || c = '\t' || c = '\n' || c = '\r' || c = '\x0b' || c = '\x0c' ||
  c = '\x85' || c = '\xa0'

/-- Embedding of Python `str.strip()`: drop leading and trailing whitespace. -/
def pyStrip (l : List Char) : List Char :=
  ((l.dropWhile isPySpace).reverse.dropWhile isPySpace).reverse

/-- ASCII embedding of Python `str.lower` on one character
(`65..90` are `A..Z`; lowering adds 32). -/
def pyLower (c : Char) : Char :=
  if 65 ≤ c.toNat ∧ c.toNat ≤ 90 then Char.ofNat (c.toNat + 32) else c

/-- ASCII embedding of Python `str.upper` on one character
(`97..122` are `a..z`; uppering subtracts 32). -/
def pyUpper (c : Char) : Char :=
  if 97 ≤ c.toNat ∧ c.toNat ≤ 122 then Char.ofNat (c.toNat - 32) else c

/-- `s.lower()` on a whole string. -/
def lowerStr (l : List Char) : List Char := l.map pyLower

/-- `s.upper()` on a whole string. -/
def upperStr (l : List Char) : List Char := l.map pyUpper

/-- `s.split(sep, 1)[0]` for a one-character separator: the text before the
first occurrence of `sep` (the whole string when `sep` is absent). -/
def takeBefore (sep : Char) : List Char → List Char
  | [] => []
  | c :: rest => if c = sep then [] else c :: takeBefore sep rest

/-- `s.split(sep, 1)[1]` for a one-character separator: the text after the
first occurrence of `sep` (the scripts only use it when `sep` is present). -/
def dropThrough (sep : Char) : List Char → List Char
  | [] => []
  | c :: rest => if c = sep then rest else dropThrough sep rest

/-- Embedding of `s.replace("syn.", "")`: remove every (left-to-right,
non-overlapping) occurrence of the four-character pattern `syn.`. -/
def removeSyn : List Char → List Char
  | 's' :: 'y' :: 'n' :: '.' :: rest => removeSyn rest
  | c :: rest => c :: removeSyn rest
  | [] => []

/-- The separators of `re.split(r",|/|;", s)`. -/
def isSepChar (c : Char) : Bool := c = ',' || c = '/' || c = ';'

/-- Embedding of `re.split(r",|/|;", s)`: split on every separator character,
keeping empty pieces, as Python's `re.split` does. -/
def splitSeps : List Char → List (List Char)
  | [] => [[]]
  | c :: rest =>
    if isSepChar c then [] :: splitSeps rest
    else
      match splitSeps rest with
      | h :: t => (c :: h) :: t
      | [] => [[c]]

/-- The order-preserving, case-insensitive deduplication loop shared by both
scripts' `parse_candidate_names` (`seen` holds the lowercase keys already
kept). -/
def dedupCIAux (seen : List (List Char)) : List (List Char) → List (List Char)
  | [] => []
  | c :: rest =>
    if lowerStr c ∈ seen then dedupCIAux seen rest
    else c :: dedupCIAux (lowerStr c :: seen) rest

/-- `Deduplicate while preserving order` step of `parse_candidate_names`. -/
def dedupCI (l : List (List Char)) : List (List Char) := dedupCIAux [] l

namespace Gbif

/-- `parse_candidate_names` from `download_gbif_mushroom_images.py`:
expand a compound species label into candidate scientific names. -/
def parse_candidate_names (raw0 : List Char) : List (List Char) :=
  let raw := pyStrip raw0
  let candidates :=
    if '(' ∈ raw ∧ ')' ∈ raw then
      (let base := pyStrip (takeBefore '(' raw)
       let inside := takeBefore ')' (dropThrough '(' raw)
       let parts := ((splitSeps (removeSyn inside)).map pyStrip).filter (fun p => p ≠ [])
       (if base ≠ [] then [base] else []) ++ parts)
    else [raw]
  let withRaw := if raw ∈ candidates then candidates else candidates ++ [raw]
  dedupCI withRaw

end Gbif

namespace Chk

/-- `parse_candidate_names` from `download_species_images.py`:
generate candidate scientific names from the provided label.  The source text
is line-for-line the same algorithm as the GBIF variant. -/
def parse_candidate_names (raw0 : List Char) : List (List Char) :=
  let raw := pyStrip raw0
  let candidates :=
    if '(' ∈ raw ∧ ')' ∈ raw then
      (let base := pyStrip (takeBefore '(' raw)
       let inside := takeBefore ')' (dropThrough '(' raw)
       let parts := ((splitSeps (removeSyn inside)).map pyStrip).filter (fun p => p ≠ [])
       (if base ≠ [] then [base] else []) ++ parts)
    else [raw]
  let withRaw := if raw ∈ candidates then candidates else candidates ++ [raw]
  dedupCI withRaw

end Chk

/-- `[a-z0-9]` membership as in the slugify regex of both scripts
(`97..122` are `a..z`, `48..57` are `0..9`). -/
def isAl (c : Char) : Bool :=
  (97 ≤ c.toNat && c.toNat ≤ 122) || (48 ≤ c.toNat && c.toNat ≤ 57)

/-- Embedding of `re.sub(r"[^a-z0-9]+", "_", s)`: replace every maximal run of
characters outside `[a-z0-9]` by a single underscore.  The flag records
whether the scanner is currently inside such a run. -/
def subRuns : List Char → Bool → List Char
  | [], _ => []
  | c :: rest, inRun =>
    if isAl c then c :: subRuns rest false
    else if inRun then subRuns rest true
    else '_' :: subRuns rest true

/-- Embedding of `s.strip("_")`. -/
def stripUnd (l : List Char) : List Char :=
  ((l.dropWhile (fun c => c == '_')).reverse.dropWhile (fun c => c == '_')).reverse

namespace Gbif

/-- `slugify` from `download_gbif_mushroom_images.py`:
`re.sub(r"[^a-z0-9]+", "_", name.lower()).strip("_")`. -/
def slugify (name : List Char) : List Char := stripUnd (subRuns (lowerStr name) false)

end Gbif

namespace Chk

/-- `slugify` from `download_species_images.py`, textually the same code. -/
def slugify (name : List Char) : List Char := stripUnd (subRuns (lowerStr name) false)

end Chk

/-- Deterministic matcher for the specification regex
`^[a-z0-9]+(_[a-z0-9]+)*$`: state `false` expects the start of a `[a-z0-9]+`
group, state `true` is inside a group. -/
def matchSlug : List Char → Bool → Bool
  | [], inGroup => inGroup
  | c :: rest, inGroup =>
    if isAl c then matchSlug rest true
    else if c == '_' && inGroup then matchSlug rest false
    else false

example :
    Gbif.parse_candidate_names ("Amanita excelsa (syn. Amanita spissa)".toList) =
      ["Amanita excelsa".toList, "Amanita spissa".toList,
       "Amanita excelsa (syn. Amanita spissa)".toList] := by decide

example : Gbif.parse_candidate_names ("(Bar)".toList) = ["Bar".toList, "(Bar)".toList] := by
  decide

example : Gbif.parse_candidate_names (" Foo".toList) = ["Foo".toList] := by decide

example : Gbif.parse_candidate_names ("".toList) = ["".toList] := by decide

example : Gbif.parse_candidate_names ("()".toList) = ["()".toList] := by decide

example : Gbif.slugify ("Amanita excelsa".toList) = "amanita_excelsa".toList := by decide

example : Gbif.slugify ("  --Boletus?? Edulis-- ".toList) = "boletus_edulis".toList := by
  decide

example : matchSlug ("amanita_excelsa".toList) false = true := by decide

example : matchSlug ("_a".toList) false = false := by decide

example : matchSlug ("a_".toList) false = false := by decide

example : matchSlug ("a__b".toList) false = false := by decide

/-- Shape invariant of `subRuns` output: an underscore is always followed by
an alphanumeric character. -/
def slugStep (a b : Char) : Prop := a = '_' → isAl b = true

theorem pyLower_fix (c : Char) (h : isAl c = true ∨ c = '_') : pyLower c = c := by
  rcases h with h | h
  · simp only [isAl, Bool.or_eq_true, Bool.and_eq_true, decide_eq_true_eq] at h
    unfold pyLower
    rcases h with ⟨h1, h2⟩ | ⟨h1, h2⟩ <;> exact if_neg (by omega)
  · subst h; decide

theorem lowerStr_fix (l : List Char) (h : ∀ c ∈ l, isAl c = true ∨ c = '_') :
    lowerStr l = l := by
  induction l with
  | nil => rfl
  | cons c rest ih =>
    unfold lowerStr
    rw [List.map_cons, pyLower_fix c (h c (List.mem_cons_self c rest))]
    exact congrArg (c :: ·) (ih fun d hd => h d (List.mem_cons_of_mem c hd))

theorem mem_subRuns : ∀ (l : List Char) (b : Bool), ∀ c ∈ subRuns l b,
    isAl c = true ∨ c = '_' := by
  intro l
  induction l with
  | nil => intro b c hc; simp [subRuns] at hc
  | cons d rest ih =>
    intro b c hc
    by_cases hd : isAl d
    · rw [show subRuns (d :: rest) b = d :: subRuns rest false by simp [subRuns, hd]] at hc
      rcases List.mem_cons.mp hc with h | h
      · exact Or.inl (h ▸ hd)
      · exact ih false c h
    · cases b with
      | true =>
        rw [show subRuns (d :: rest) true = subRuns rest true by simp [subRuns, hd]] at hc
        exact ih true c hc
      | false =>
        rw [show subRuns (d :: rest) false = '_' :: subRuns rest true by
          simp [subRuns, hd]] at hc
        rcases List.mem_cons.mp hc with h | h
        · exact Or.inr h
        · exact ih true c h

theorem head_subRuns_true : ∀ (l : List Char) (c : Char),
    (subRuns l true).head? = some c → isAl c = true := by
  intro l
  induction l with
  | nil => intro c hc; simp [subRuns] at hc
  | cons d rest ih =>
    intro c hc
    by_cases hd : isAl d
    · rw [show subRuns (d :: rest) true = d :: subRuns rest false by simp [subRuns, hd]] at hc
      simp only [List.head?_cons, Option.some.injEq] at hc
      exact hc ▸ hd
    · rw [show subRuns (d :: rest) true = subRuns rest true by simp [subRuns, hd]] at hc
      exact ih c hc

theorem chain_subRuns (l : List Char) : ∀ b, List.Chain' slugStep (subRuns l b) := by
  induction l with
  | nil => intro b; simp [subRuns]
  | cons d rest ih =>
    intro b
    by_cases hd : isAl d
    · rw [show subRuns (d :: rest) b = d :: subRuns rest false by simp [subRuns, hd]]
      refine List.chain'_cons'.mpr ⟨?_, ih false⟩
      intro y _ hdu
      exact absurd (hdu ▸ hd) (by decide)
    · cases b with
      | true =>
        rw [show subRuns (d :: rest) true = subRuns rest true by simp [subRuns, hd]]
        exact ih true
      | false =>
        rw [show subRuns (d :: rest) false = '_' :: subRuns rest true by simp [subRuns, hd]]
        refine List.chain'_cons'.mpr ⟨?_, ih true⟩
        intro y hy _
        exact head_subRuns_true rest y hy

theorem chain_dropWhile {R : Char → Char → Prop} (p : Char → Bool) :
    ∀ l : List Char, List.Chain' R l → List.Chain' R (l.dropWhile p) := by
  intro l
  induction l with
  | nil => intro h; simp
  | cons c rest ih =>
    intro h
    by_cases hc : p c
    · rw [List.dropWhile_cons_of_pos hc]
      exact ih h.tail
    · rwa [List.dropWhile_cons_of_neg hc]

theorem head_dropWhile_false (p : Char → Bool) :
    ∀ l : List Char, ∀ c, (l.dropWhile p).head? = some c → p c = false := by
  intro l
  induction l with
  | nil => intro c hc; simp at hc
  | cons d rest ih =>
    intro c hc
    by_cases hd : p d
    · rw [List.dropWhile_cons_of_pos hd] at hc
      exact ih c hc
    · rw [List.dropWhile_cons_of_neg hd] at hc
      simp only [List.head?_cons, Option.some.injEq] at hc
      exact hc ▸ Bool.not_eq_true _ ▸ (by simpa using hd)

theorem mem_dropWhile (p : Char → Bool) :
    ∀ l : List Char, ∀ c ∈ l.dropWhile p, c ∈ l := by
  intro l
  induction l with
  | nil => intro c hc; simp at hc
  | cons d rest ih =>
    intro c hc
    by_cases hd : p d
    · rw [List.dropWhile_cons_of_pos hd] at hc
      exact List.mem_cons_of_mem d (ih c hc)
    · rwa [List.dropWhile_cons_of_neg hd] at hc

theorem dropWhile_append_last (p : Char → Bool) (a : Char) (ha : p a = false) :
    ∀ u : List Char, ∃ w, (u ++ [a]).dropWhile p = w ++ [a] := by
  intro u
  induction u with
  | nil =>
    refine ⟨[], ?_⟩
    rw [List.nil_append, List.dropWhile_cons_of_neg (by simp [ha])]
  | cons c u ih =>
    by_cases hc : p c
    · obtain ⟨w, hw⟩ := ih
      exact ⟨w, by rw [List.cons_append, List.dropWhile_cons_of_pos hc, hw]⟩
    · exact ⟨c :: u, by rw [List.cons_append, List.dropWhile_cons_of_neg hc]⟩

theorem stripUnd_shape (l : List Char) :
    stripUnd l = [] ∨ ∃ a w, stripUnd l = a :: w ∧ (a == '_') = false := by
  unfold stripUnd
  cases hz : l.dropWhile (fun c => c == '_') with
  | nil => left; simp
  | cons a t =>
    right
    have ha : (a == '_') = false := head_dropWhile_false _ l a (by rw [hz]; rfl)
    obtain ⟨w, hw⟩ := dropWhile_append_last (fun c => c == '_') a ha t.reverse
    rw [List.reverse_cons, hw]
    exact ⟨a, w.reverse, by simp, ha⟩

theorem mem_stripUnd (l : List Char) : ∀ c ∈ stripUnd l, c ∈ l := by
  intro c hc
  unfold stripUnd at hc
  rw [List.mem_reverse] at hc
  have h1 := mem_dropWhile _ _ c hc
  rw [List.mem_reverse] at h1
  exact mem_dropWhile _ _ c h1

theorem chain_stripUnd {R : Char → Char → Prop} (l : List Char)
    (h : List.Chain' R l) : List.Chain' R (stripUnd l) := by
  unfold stripUnd
  exact List.chain'_reverse.mpr
    (chain_dropWhile _ _ (List.chain'_reverse.mpr (chain_dropWhile _ _ h)))

theorem stripUnd_head (l : List Char) :
    ∀ c, (stripUnd l).head? = some c → (c == '_') = false := by
  intro c hc
  rcases stripUnd_shape l with h | ⟨a, w, he, ha⟩
  · rw [h] at hc; simp at hc
  · rw [he] at hc
    simp only [List.head?_cons, Option.some.injEq] at hc
    exact hc ▸ ha

theorem stripUnd_getLast (l : List Char) :
    ∀ c, (stripUnd l).getLast? = some c → (c == '_') = false := by
  intro c hc
  unfold stripUnd at hc
  rw [List.getLast?_reverse] at hc
  exact head_dropWhile_false _ _ c hc

theorem matchSlug_inGroup : ∀ (n : Nat) (l : List Char), l.length ≤ n →
    (∀ c ∈ l, isAl c = true ∨ c = '_') → List.Chain' slugStep l →
    l.getLast? ≠ some '_' → matchSlug l true = true := by
  intro n
  induction n with
  | zero =>
    intro l hl _ _ _
    have h0 : l = [] := List.length_eq_zero.mp (Nat.le_zero.mp hl)
    subst h0; rfl
  | succ n ih =>
    intro l hl hok hch hlast
    cases l with
    | nil => rfl
    | cons d rest =>
      by_cases hd : isAl d
      · rw [show matchSlug (d :: rest) true = matchSlug rest true by simp [matchSlug, hd]]
        refine ih rest (by simpa using hl) (fun c hc => hok c (List.mem_cons_of_mem d hc))
          hch.tail ?_
        cases rest with
        | nil => simp
        | cons e r => simpa using hlast
      · have hd' : d = '_' := by
          rcases hok d (List.mem_cons_self d rest) with h | h
          · exact absurd h hd
          · exact h
        subst hd'
        cases rest with
        | nil => simp at hlast
        | cons e rest' =>
          have he : isAl e = true := (List.chain'_cons.mp hch).1 rfl
          rw [show matchSlug ('_' :: e :: rest') true = matchSlug rest' true by
            simp [matchSlug, he]]
          refine ih rest' (by simp at hl ⊢; omega)
            (fun c hc => hok c (List.mem_cons_of_mem _ (List.mem_cons_of_mem _ hc)))
            hch.tail.tail ?_
          cases rest' with
          | nil => simp
          | cons f r => simpa using hlast

theorem subRuns_id : ∀ (n : Nat) (l : List Char), l.length ≤ n →
    (∀ c ∈ l, isAl c = true ∨ c = '_') → List.Chain' slugStep l →
    l.getLast? ≠ some '_' → subRuns l false = l := by
  intro n
  induction n with
  | zero =>
    intro l hl _ _ _
    have h0 : l = [] := List.length_eq_zero.mp (Nat.le_zero.mp hl)
    subst h0; rfl
  | succ n ih =>
    intro l hl hok hch hlast
    cases l with
    | nil => rfl
    | cons d rest =>
      by_cases hd : isAl d
      · rw [show subRuns (d :: rest) false = d :: subRuns rest false by simp [subRuns, hd]]
        refine congrArg (d :: ·)
          (ih rest (by simpa using hl) (fun c hc => hok c (List.mem_cons_of_mem d hc))
            hch.tail ?_)
        cases rest with
        | nil => simp
        | cons e r => simpa using hlast
      · have hd' : d = '_' := by
          rcases hok d (List.mem_cons_self d rest) with h | h
          · exact absurd h hd
          · exact h
        subst hd'
        cases rest with
        | nil => simp at hlast
        | cons e rest' =>
          have he : isAl e = true := (List.chain'_cons.mp hch).1 rfl
          rw [show subRuns ('_' :: e :: rest') false = '_' :: e :: subRuns rest' false by
            simp [subRuns, he]]
          refine congrArg (fun t => '_' :: e :: t)
            (ih rest' (by simp at hl ⊢; omega)
              (fun c hc => hok c (List.mem_cons_of_mem _ (List.mem_cons_of_mem _ hc)))
              hch.tail.tail ?_)
          cases rest' with
          | nil => simp
          | cons f r => simpa using hlast

theorem stripUnd_id (l : List Char) (hh : l.head? ≠ some '_')
    (hl : l.getLast? ≠ some '_') : stripUnd l = l := by
  unfold stripUnd
  have h1 : l.dropWhile (fun c => c == '_') = l := by
    cases l with
    | nil => rfl
    | cons a t =>
      refine List.dropWhile_cons_of_neg ?_
      simp only [List.head?_cons, ne_eq, Option.some.injEq] at hh
      simp [hh]
  rw [h1]
  have h2 : l.reverse.dropWhile (fun c => c == '_') = l.reverse := by
    cases hr : l.reverse with
    | nil => rfl
    | cons a t =>
      have ha0 : l.getLast? = some a := by
        rw [← List.head?_reverse, hr]; rfl
      have ha : a ≠ '_' := fun h => hl (h ▸ ha0)
      rw [List.dropWhile_cons_of_neg (by simp [ha])]
  rw [h2, List.reverse_reverse]

theorem slug_ok (x : List Char) :
    ∀ c ∈ stripUnd (subRuns (lowerStr x) false), isAl c = true ∨ c = '_' :=
  fun c hc => mem_subRuns (lowerStr x) false c (mem_stripUnd _ c hc)

theorem slug_chain (x : List Char) :
    List.Chain' slugStep (stripUnd (subRuns (lowerStr x) false)) :=
  chain_stripUnd _ (chain_subRuns (lowerStr x) false)

theorem slug_head (x : List Char) :
    (stripUnd (subRuns (lowerStr x) false)).head? ≠ some '_' := by
  intro h
  have := stripUnd_head _ '_' h
  simp at this

theorem slug_last (x : List Char) :
    (stripUnd (subRuns (lowerStr x) false)).getLast? ≠ some '_' := by
  intro h
  have := stripUnd_getLast _ '_' h
  simp at this

theorem slugify_idem_core (x : List Char) :
    stripUnd (subRuns (lowerStr (stripUnd (subRuns (lowerStr x) false))) false) =
      stripUnd (subRuns (lowerStr x) false) := by
  rw [lowerStr_fix _ (slug_ok x),
    subRuns_id (stripUnd (subRuns (lowerStr x) false)).length _ le_rfl (slug_ok x)
      (slug_chain x) (slug_last x),
    stripUnd_id _ (slug_head x) (slug_last x)]

theorem slug_pattern_core (x : List Char) :
    stripUnd (subRuns (lowerStr x) false) = [] ∨
      matchSlug (stripUnd (subRuns (lowerStr x) false)) false = true := by
  rcases stripUnd_shape (subRuns (lowerStr x) false) with h | ⟨a, w, he, ha⟩
  · exact Or.inl h
  · right
    rw [he]
    have hA : isAl a = true := by
      rcases slug_ok x a (by rw [he]; exact List.mem_cons_self a w) with h | h
      · exact h
      · rw [h] at ha; simp at ha
    rw [show matchSlug (a :: w) false = matchSlug w true by simp [matchSlug, hA]]
    refine matchSlug_inGroup w.length w le_rfl
      (fun c hc => slug_ok x c (by rw [he]; exact List.mem_cons_of_mem a hc)) ?_ ?_
    · have hch := slug_chain x
      rw [he] at hch
      exact hch.tail
    · have hlast := slug_last x
      rw [he] at hlast
      cases w with
      | nil => simp
      | cons b t => simpa using hlast

/-- C7: `slugify` is idempotent (`slug(slug(x)) = slug(x)`) and its output
either matches the regex `^[a-z0-9]+(_[a-z0-9]+)*$` or is the empty string,
for both scripts' (identical) `slugify` functions. -/
theorem C7_slugify_idempotent_and_shape (x : List Char) :
    Gbif.slugify (Gbif.slugify x) = Gbif.slugify x ∧
    (Gbif.slugify x = [] ∨ matchSlug (Gbif.slugify x) false = true) ∧
    Chk.slugify (Chk.slugify x) = Chk.slugify x ∧
    (Chk.slugify x = [] ∨ matchSlug (Chk.slugify x) false = true) :=
  ⟨slugify_idem_core x, slug_pattern_core x, slugify_idem_core x, slug_pattern_core x⟩

/-- Reasoning view of the candidate list built in the parenthetical branch of
`parse_candidate_names`, before the raw-label fallback and the dedup pass. -/
def parenCands (raw : List Char) : List (List Char) :=
  (if pyStrip (takeBefore '(' raw) ≠ [] then [pyStrip (takeBefore '(' raw)] else []) ++
    ((splitSeps (removeSyn (takeBefore ')' (dropThrough '(' raw)))).map pyStrip).filter
      (fun p => p ≠ [])

/-- Reasoning view of the full candidate list before deduplication. -/
def preDedup (raw : List Char) : List (List Char) :=
  let cands := if '(' ∈ raw ∧ ')' ∈ raw then parenCands raw else [raw]
  if raw ∈ cands then cands else cands ++ [raw]

theorem pcn_gbif_eq (raw0 : List Char) :
    Gbif.parse_candidate_names raw0 = dedupCI (preDedup (pyStrip raw0)) := rfl

theorem pcn_chk_eq (raw0 : List Char) :
    Chk.parse_candidate_names raw0 = dedupCI (preDedup (pyStrip raw0)) := rfl

theorem length_pyStrip_le (l : List Char) : (pyStrip l).length ≤ l.length := by
  unfold pyStrip
  rw [List.length_reverse]
  refine le_trans (List.dropWhile_sublist _).length_le ?_
  rw [List.length_reverse]
  exact (List.dropWhile_sublist _).length_le

theorem length_takeBefore_le (c : Char) : ∀ l : List Char,
    (takeBefore c l).length ≤ l.length := by
  intro l
  induction l with
  | nil => simp [takeBefore]
  | cons d rest ih =>
    by_cases hd : d = c
    · simp [takeBefore, hd]
    · rw [show takeBefore c (d :: rest) = d :: takeBefore c rest by simp [takeBefore, hd]]
      simpa using ih

theorem length_takeBefore_lt (c : Char) : ∀ l : List Char, c ∈ l →
    (takeBefore c l).length < l.length := by
  intro l
  induction l with
  | nil => intro h; simp at h
  | cons d rest ih =>
    intro hc
    by_cases hd : d = c
    · rw [show takeBefore c (d :: rest) = [] by simp [takeBefore, hd]]
      simp
    · rw [show takeBefore c (d :: rest) = d :: takeBefore c rest by simp [takeBefore, hd]]
      have hm : c ∈ rest := by
        rcases List.mem_cons.mp hc with h | h
        · exact absurd h.symm hd
        · exact h
      simpa using ih hm

theorem length_dropThrough_lt (c : Char) : ∀ l : List Char, c ∈ l →
    (dropThrough c l).length < l.length := by
  intro l
  induction l with
  | nil => intro h; simp at h
  | cons d rest ih =>
    intro hc
    by_cases hd : d = c
    · rw [show dropThrough c (d :: rest) = rest by simp [dropThrough, hd]]
      simp
    · rw [show dropThrough c (d :: rest) = dropThrough c rest by simp [dropThrough, hd]]
      have hm : c ∈ rest := by
        rcases List.mem_cons.mp hc with h | h
        · exact absurd h.symm hd
        · exact h
      exact lt_trans (ih hm) (by simp)

theorem removeSyn_cons (c : Char) (rest : List Char)
    (h : ∀ r : List Char, c = 's' → rest = 'y' :: 'n' :: '.' :: r → False) :
    removeSyn (c :: rest) = c :: removeSyn rest := by
  rw [removeSyn.eq_def]
  split
  · rename_i r heq
    injection heq with h1 h2
    exact (h r h1 h2).elim
  · rename_i c2 r2 hno heq
    injection heq with h1 h2
    rw [h1, h2]
  · rename_i heq
    simp at heq

theorem length_removeSyn_le (l : List Char) : (removeSyn l).length ≤ l.length := by
  induction l using removeSyn.induct with
  | case1 rest ih => simp only [removeSyn]; simp; omega
  | case2 c rest h ih =>
    rw [removeSyn_cons c rest h]
    simpa using ih
  | case3 => simp [removeSyn]

theorem splitSeps_mem_length : ∀ (l : List Char), ∀ piece ∈ splitSeps l,
    piece.length ≤ l.length := by
  intro l
  induction l with
  | nil =>
    intro piece hp
    simp [splitSeps] at hp
    simp [hp]
  | cons c rest ih =>
    intro piece hp
    by_cases hc : isSepChar c
    · rw [show splitSeps (c :: rest) = [] :: splitSeps rest by simp [splitSeps, hc]] at hp
      rcases List.mem_cons.mp hp with h | h
      · simp [h]
      · exact le_trans (ih piece h) (by simp)
    · cases heq : splitSeps rest with
      | nil =>
        rw [show splitSeps (c :: rest) = [[c]] by simp [splitSeps, hc, heq]] at hp
        simp at hp
        simp [hp]
      | cons h t =>
        rw [show splitSeps (c :: rest) = (c :: h) :: t by simp [splitSeps, hc, heq]] at hp
        rcases List.mem_cons.mp hp with hx | hx
        · have : h.length ≤ rest.length := ih h (by rw [heq]; exact List.mem_cons_self h t)
          simp [hx]
          omega
        · have : piece ∈ splitSeps rest := by rw [heq]; exact List.mem_cons_of_mem h hx
          exact le_trans (ih piece this) (by simp)

theorem lowerStr_length (l : List Char) : (lowerStr l).length = l.length :=
  List.length_map l pyLower

theorem parenCands_short (raw : List Char) (hp : '(' ∈ raw) :
    ∀ x ∈ parenCands raw, x.length < raw.length := by
  intro x hx
  unfold parenCands at hx
  rcases List.mem_append.mp hx with h | h
  · by_cases hb : pyStrip (takeBefore '(' raw) ≠ []
    · rw [if_pos hb] at h
      simp at h
      subst h
      exact lt_of_le_of_lt (length_pyStrip_le _) (length_takeBefore_lt '(' raw hp)
    · rw [if_neg hb] at h
      simp at h
  · rw [List.mem_filter] at h
    obtain ⟨piece, hpiece, hmap⟩ := List.mem_map.mp h.1
    subst hmap
    have h1 := length_pyStrip_le piece
    have h2 := splitSeps_mem_length _ piece hpiece
    have h3 := length_removeSyn_le (takeBefore ')' (dropThrough '(' raw))
    have h4 := length_takeBefore_le ')' (dropThrough '(' raw)
    have h5 := length_dropThrough_lt '(' raw hp
    omega

theorem raw_notMem_parenCands (raw : List Char) (hp : '(' ∈ raw) :
    raw ∉ parenCands raw := by
  intro h
  exact absurd (parenCands_short raw hp raw h) (lt_irrefl _)

theorem preDedup_paren (raw : List Char) (hpar : '(' ∈ raw ∧ ')' ∈ raw) :
    preDedup raw = parenCands raw ++ [raw] := by
  unfold preDedup
  rw [if_pos hpar, if_neg (raw_notMem_parenCands raw hpar.1)]

theorem preDedup_self (raw : List Char) : raw ∈ preDedup raw := by
  unfold preDedup
  by_cases hpar : '(' ∈ raw ∧ ')' ∈ raw
  · rw [if_pos hpar, if_neg (raw_notMem_parenCands raw hpar.1)]
    exact List.mem_append.mpr (Or.inr (List.mem_singleton.mpr rfl))
  · rw [if_neg hpar, if_pos (List.mem_singleton.mpr rfl)]
    exact List.mem_singleton.mpr rfl

theorem preDedup_key_unique (raw : List Char) :
    ∀ y ∈ preDedup raw, lowerStr y = lowerStr raw → y = raw := by
  intro y hy hkey
  by_cases hpar : '(' ∈ raw ∧ ')' ∈ raw
  · rw [preDedup_paren raw hpar] at hy
    rcases List.mem_append.mp hy with h | h
    · have hlt := parenCands_short raw hpar.1 y h
      have : (lowerStr y).length = (lowerStr raw).length := by rw [hkey]
      rw [lowerStr_length, lowerStr_length] at this
      omega
    · simpa using h
  · unfold preDedup at hy
    rw [if_neg hpar, if_pos (List.mem_singleton.mpr rfl)] at hy
    simpa using hy

theorem mem_dedupCIAux : ∀ (l seen : List (List Char)) (x : List Char),
    x ∈ l → lowerStr x ∉ seen → (∀ y ∈ l, lowerStr y = lowerStr x → y = x) →
    x ∈ dedupCIAux seen l := by
  intro l
  induction l with
  | nil => intro seen x hx _ _; simp at hx
  | cons c rest ih =>
    intro seen x hx hseen huniq
    by_cases hxc : x = c
    · subst hxc
      rw [show dedupCIAux seen (x :: rest) = x :: dedupCIAux (lowerStr x :: seen) rest by
        simp [dedupCIAux, hseen]]
      exact List.mem_cons_self x _
    · have hxr : x ∈ rest := by
        rcases List.mem_cons.mp hx with h | h
        · exact absurd h hxc
        · exact h
      have hck : lowerStr c ≠ lowerStr x := fun h =>
        hxc (huniq c (List.mem_cons_self c rest) h).symm
      by_cases hcs : lowerStr c ∈ seen
      · rw [show dedupCIAux seen (c :: rest) = dedupCIAux seen rest by
          simp [dedupCIAux, hcs]]
        exact ih seen x hxr hseen fun y hy => huniq y (List.mem_cons_of_mem c hy)
      · rw [show dedupCIAux seen (c :: rest) = c :: dedupCIAux (lowerStr c :: seen) rest by
          simp [dedupCIAux, hcs]]
        refine List.mem_cons_of_mem c (ih _ x hxr ?_ fun y hy => huniq y (List.mem_cons_of_mem c hy))
        intro h
        rcases List.mem_cons.mp h with h | h
        · exact hck h.symm
        · exact hseen h

theorem mem_dedupCI_self (raw : List Char) : raw ∈ dedupCI (preDedup raw) :=
  mem_dedupCIAux (preDedup raw) [] raw (preDedup_self raw) (by simp)
    (preDedup_key_unique raw)

theorem dedupCI_cons (c : List Char) (rest : List (List Char)) :
    dedupCI (c :: rest) = c :: dedupCIAux [lowerStr c] rest := by
  simp [dedupCI, dedupCIAux]

theorem dedupCI_preDedup_ne (raw : List Char) : dedupCI (preDedup raw) ≠ [] := by
  cases hd : preDedup raw with
  | nil => exact absurd (hd ▸ preDedup_self raw) (List.not_mem_nil raw)
  | cons c rest =>
    rw [dedupCI_cons]
    exact List.cons_ne_nil c _

/-- C3 counterexample: for the label `" Foo"` (leading whitespace) the
returned candidate list is `["Foo"]`; the raw input label `" Foo"` itself
does not appear in it, because `parse_candidate_names` strips the label
before building candidates. -/
theorem C3_counterexample_raw_label_missing :
    Gbif.parse_candidate_names (" Foo".toList) = ["Foo".toList] ∧
      " Foo".toList ∉ Gbif.parse_candidate_names (" Foo".toList) := by
  constructor <;> decide

/-- C3 amended: for every input label, the whitespace-stripped form of the
label appears in the candidate list returned by `parse_candidate_names`
(both script variants); for labels without surrounding whitespace this is
the raw label itself. -/
theorem C3_amended_stripped_label_mem (l : List Char) :
    pyStrip l ∈ Gbif.parse_candidate_names l ∧
      pyStrip l ∈ Chk.parse_candidate_names l :=
  ⟨by rw [pcn_gbif_eq]; exact mem_dedupCI_self _,
   by rw [pcn_chk_eq]; exact mem_dedupCI_self _⟩

/-- C5: the label `"Amanita excelsa (syn. Amanita spissa)"` expands to
exactly `["Amanita excelsa", "Amanita spissa",
"Amanita excelsa (syn. Amanita spissa)"]`, in that order, in both scripts. -/
theorem C5_amanita_excelsa_scenario :
    Gbif.parse_candidate_names ("Amanita excelsa (syn. Amanita spissa)".toList) =
      ["Amanita excelsa".toList, "Amanita spissa".toList,
       "Amanita excelsa (syn. Amanita spissa)".toList] ∧
    Chk.parse_candidate_names ("Amanita excelsa (syn. Amanita spissa)".toList) =
      ["Amanita excelsa".toList, "Amanita spissa".toList,
       "Amanita excelsa (syn. Amanita spissa)".toList] := by
  constructor <;> decide

/-- C8: for every input label (including the empty string and `"()"`),
`parse_candidate_names` returns a non-empty list in both scripts. -/
theorem C8_candidates_nonempty (l : List Char) :
    Gbif.parse_candidate_names l ≠ [] ∧ Chk.parse_candidate_names l ≠ [] :=
  ⟨by rw [pcn_gbif_eq]; exact dedupCI_preDedup_ne _,
   by rw [pcn_chk_eq]; exact dedupCI_preDedup_ne _⟩

/-- C10: the two scripts' `parse_candidate_names` functions are
extensionally equal: they return identical candidate lists on every input. -/
theorem C10_candidate_expanders_agree (l : List Char) :
    Gbif.parse_candidate_names l = Chk.parse_candidate_names l := rfl

/-- Reasoning view of trailing-whitespace removal (`pyStrip` is leading
removal followed by this). -/
def stripTrail (l : List Char) : List Char := (l.reverse.dropWhile isPySpace).reverse

theorem pyStrip_eq_stripTrail (l : List Char) :
    pyStrip l = stripTrail (l.dropWhile isPySpace) := rfl

theorem takeBefore_dropWhile (c : Char) (hc : isPySpace c = false) :
    ∀ l : List Char,
      takeBefore c (l.dropWhile isPySpace) = (takeBefore c l).dropWhile isPySpace := by
  intro l
  induction l with
  | nil => simp [takeBefore]
  | cons d rest ih =>
    by_cases hd : isPySpace d
    · have hdc : d ≠ c := fun h => by rw [h, hc] at hd; exact absurd hd (by simp)
      rw [List.dropWhile_cons_of_pos hd,
        show takeBefore c (d :: rest) = d :: takeBefore c rest by simp [takeBefore, hdc],
        List.dropWhile_cons_of_pos hd]
      exact ih
    · rw [List.dropWhile_cons_of_neg hd]
      by_cases hdc : d = c
      · rw [show takeBefore c (d :: rest) = [] by simp [takeBefore, hdc]]
        simp [takeBefore, hdc]
      · rw [show takeBefore c (d :: rest) = d :: takeBefore c rest by simp [takeBefore, hdc]]
        rw [List.dropWhile_cons_of_neg hd]

theorem stripTrail_decomp (m : List Char) :
    ∃ v, m = stripTrail m ++ v ∧ ∀ x ∈ v, isPySpace x = true := by
  refine ⟨(m.reverse.takeWhile isPySpace).reverse, ?_, ?_⟩
  · unfold stripTrail
    conv_lhs => rw [← m.reverse_reverse, ← List.takeWhile_append_dropWhile
      (p := isPySpace) (l := m.reverse)]
    rw [List.reverse_append]
  · intro x hx
    rw [List.mem_reverse] at hx
    exact List.mem_takeWhile_imp hx

theorem takeBefore_append_left (c : Char) :
    ∀ (u v : List Char), c ∈ u → takeBefore c (u ++ v) = takeBefore c u := by
  intro u
  induction u with
  | nil => intro v h; simp at h
  | cons d u' ih =>
    intro v hc
    by_cases hd : d = c
    · simp [takeBefore, hd]
    · have hm : c ∈ u' := by
        rcases List.mem_cons.mp hc with h | h
        · exact absurd h.symm hd
        · exact h
      rw [List.cons_append,
        show takeBefore c (d :: (u' ++ v)) = d :: takeBefore c (u' ++ v) by
          simp [takeBefore, hd],
        show takeBefore c (d :: u') = d :: takeBefore c u' by simp [takeBefore, hd],
        ih v hm]

theorem mem_dropWhile_of_mem (p : Char → Bool) (c : Char) (hc : p c = false) :
    ∀ l : List Char, c ∈ l → c ∈ l.dropWhile p := by
  intro l
  induction l with
  | nil => intro h; simp at h
  | cons d rest ih =>
    intro hm
    by_cases hd : p d
    · have hdc : c ≠ d := fun h => by rw [h, hd] at hc; exact absurd hc (by simp)
      rw [List.dropWhile_cons_of_pos hd]
      exact ih (by rcases List.mem_cons.mp hm with h | h; exact absurd h hdc; exact h)
    · rwa [List.dropWhile_cons_of_neg hd]

theorem mem_stripTrail_of_mem (c : Char) (hc : isPySpace c = false) (m : List Char)
    (hm : c ∈ m) : c ∈ stripTrail m := by
  unfold stripTrail
  rw [List.mem_reverse]
  exact mem_dropWhile_of_mem _ c hc m.reverse (List.mem_reverse.mpr hm)

theorem mem_pyStrip_of_mem (c : Char) (hc : isPySpace c = false) (l : List Char)
    (hm : c ∈ l) : c ∈ pyStrip l := by
  rw [pyStrip_eq_stripTrail]
  exact mem_stripTrail_of_mem c hc _ (mem_dropWhile_of_mem _ c hc l hm)

theorem dropWhile_idem (p : Char → Bool) (l : List Char) :
    (l.dropWhile p).dropWhile p = l.dropWhile p := by
  cases h : l.dropWhile p with
  | nil => rfl
  | cons a t =>
    have ha := head_dropWhile_false p l a (by rw [h]; rfl)
    rw [List.dropWhile_cons_of_neg (by simp [ha])]

theorem pyStrip_dropWhile (u : List Char) :
    pyStrip (u.dropWhile isPySpace) = pyStrip u := by
  rw [pyStrip_eq_stripTrail, pyStrip_eq_stripTrail, dropWhile_idem]

theorem trimmed_before_paren_eq (l : List Char) (hp : '(' ∈ l) :
    pyStrip (takeBefore '(' (pyStrip l)) = pyStrip (takeBefore '(' l) := by
  have hws : isPySpace '(' = false := by decide
  have hm : '(' ∈ l.dropWhile isPySpace := mem_dropWhile_of_mem _ '(' hws l hp
  obtain ⟨v, hv, _⟩ := stripTrail_decomp (l.dropWhile isPySpace)
  have hst : '(' ∈ stripTrail (l.dropWhile isPySpace) :=
    mem_stripTrail_of_mem '(' hws _ hm
  calc pyStrip (takeBefore '(' (pyStrip l))
      = pyStrip (takeBefore '(' (stripTrail (l.dropWhile isPySpace))) := by
        rw [pyStrip_eq_stripTrail l]
    _ = pyStrip (takeBefore '(' (l.dropWhile isPySpace)) := by
        conv_rhs => rw [hv]
        rw [takeBefore_append_left '(' _ v hst]
    _ = pyStrip ((takeBefore '(' l).dropWhile isPySpace) := by
        rw [takeBefore_dropWhile '(' hws l]
    _ = pyStrip (takeBefore '(' l) := pyStrip_dropWhile _

/-- C2 counterexample: the label `"(Bar)"` contains both `(` and `)`, yet the
first candidate returned is `"Bar"`, not the (empty) trimmed text before the
first `(` — the code only emits the prefix as a candidate when it is
non-empty. -/
theorem C2_counterexample_empty_prefix :
    ('(' ∈ "(Bar)".toList ∧ ')' ∈ "(Bar)".toList) ∧
      (Gbif.parse_candidate_names ("(Bar)".toList)).head? ≠
        some (pyStrip (takeBefore '(' ("(Bar)".toList))) := by
  constructor <;> decide

/-- C2 amended: for every label that contains `(` and `)` and whose trimmed
text before the first `(` is non-empty, the first element of the candidate
list equals that trimmed prefix (both script variants). -/
theorem C2_amended_first_candidate (l : List Char) (hp : '(' ∈ l) (hq : ')' ∈ l)
    (hb : pyStrip (takeBefore '(' l) ≠ []) :
    (Gbif.parse_candidate_names l).head? = some (pyStrip (takeBefore '(' l)) ∧
    (Chk.parse_candidate_names l).head? = some (pyStrip (takeBefore '(' l)) := by
  have core : (dedupCI (preDedup (pyStrip l))).head? =
      some (pyStrip (takeBefore '(' l)) := by
    have hws : isPySpace '(' = false := by decide
    have hws2 : isPySpace ')' = false := by decide
    have hp' : '(' ∈ pyStrip l := mem_pyStrip_of_mem '(' hws l hp
    have hq' : ')' ∈ pyStrip l := mem_pyStrip_of_mem ')' hws2 l hq
    have hbase := trimmed_before_paren_eq l hp
    have hb' : pyStrip (takeBefore '(' (pyStrip l)) ≠ [] := by rw [hbase]; exact hb
    rw [preDedup_paren _ ⟨hp', hq'⟩]
    rw [show parenCands (pyStrip l) =
        pyStrip (takeBefore '(' (pyStrip l)) ::
          ((splitSeps (removeSyn (takeBefore ')' (dropThrough '(' (pyStrip l))))).map
            pyStrip).filter (fun p => p ≠ []) by
      unfold parenCands; rw [if_pos hb']; rfl]
    rw [List.cons_append, dedupCI_cons, List.head?_cons, hbase]
  exact ⟨by rw [pcn_gbif_eq]; exact core, by rw [pcn_chk_eq]; exact core⟩

/-- Witness for `C2_amended_first_candidate` at the concrete label
`"Foo (Bar)"`. -/
theorem C2_amended_first_candidate_witness :
    ('(' ∈ "Foo (Bar)".toList ∧ ')' ∈ "Foo (Bar)".toList ∧
      pyStrip (takeBefore '(' ("Foo (Bar)".toList)) ≠ []) ∧
    (Gbif.parse_candidate_names ("Foo (Bar)".toList)).head? =
      some (pyStrip (takeBefore '(' ("Foo (Bar)".toList))) :=
  ⟨⟨by decide, by decide, by decide⟩,
   (C2_amended_first_candidate ("Foo (Bar)".toList) (by decide) (by decide) (by decide)).1⟩

/-- Decimal digit characters of a natural number, as produced by Python's
`str(n)` / f-string formatting.  `natCharsAux` carries fuel; `n + 1` is
always enough. -/
def natCharsAux : Nat → Nat → List Char
  | 0, _ => []
  | fuel + 1, n =>
    if n < 10 then [Nat.digitChar n]
    else natCharsAux fuel (n / 10) ++ [Nat.digitChar (n % 10)]

/-- `str(n)` for a natural number. -/
def natChars (n : Nat) : List Char := natCharsAux (n + 1) n

theorem natCharsAux_eq (n : Nat) : ∀ f, n < f → natCharsAux f n = natChars n := by
  induction n using Nat.strong_induction_on with
  | _ n ih =>
    intro f hf
    match f with
    | g + 1 =>
      by_cases h10 : n < 10
      · simp [natCharsAux, natChars, h10]
      · have hpos : 0 < n := by omega
        have hdiv : n / 10 < n := Nat.div_lt_self hpos (by omega)
        have h1 : natCharsAux g (n / 10) = natChars (n / 10) :=
          ih (n / 10) hdiv g (by omega)
        have h2 : natCharsAux n (n / 10) = natChars (n / 10) :=
          ih (n / 10) hdiv n hdiv
        simp only [natCharsAux, natChars, if_neg h10]
        rw [h1, h2]

theorem natChars_small (n : Nat) (h : n < 10) : natChars n = [Nat.digitChar n] := by
  simp [natChars, natCharsAux, h]

theorem natChars_big (n : Nat) (h : ¬ n < 10) :
    natChars n = natChars (n / 10) ++ [Nat.digitChar (n % 10)] := by
  have hdiv : n / 10 < n := Nat.div_lt_self (by omega) (by omega)
  have hstep : natChars n =
      if n < 10 then [Nat.digitChar n]
      else natCharsAux n (n / 10) ++ [Nat.digitChar (n % 10)] := rfl
  rw [hstep, if_neg h, natCharsAux_eq (n / 10) n hdiv]

/-- Characters `0`-`9`. -/
def isDigitChar (c : Char) : Bool := 48 ≤ c.toNat && c.toNat ≤ 57

theorem digitChar_toNat (d : Nat) (hd : d < 10) : (Nat.digitChar d).toNat = 48 + d := by
  interval_cases d <;> rfl

theorem digitChar_digit (d : Nat) (hd : d < 10) : isDigitChar (Nat.digitChar d) = true := by
  interval_cases d <;> rfl

theorem natChars_digits (n : Nat) : ∀ c ∈ natChars n, isDigitChar c = true := by
  induction n using Nat.strong_induction_on with
  | _ n ih =>
    intro c hc
    by_cases h10 : n < 10
    · rw [natChars_small n h10] at hc
      simp at hc
      exact hc ▸ digitChar_digit n h10
    · rw [natChars_big n h10] at hc
      rcases List.mem_append.mp hc with h | h
      · exact ih (n / 10) (Nat.div_lt_self (by omega) (by omega)) c h
      · simp at h
        exact h ▸ digitChar_digit (n % 10) (Nat.mod_lt n (by omega))

/-- Evaluation of a digit string back to a number. -/
def chrsVal (l : List Char) : Nat := l.foldl (fun acc c => acc * 10 + (c.toNat - 48)) 0

theorem chrsVal_append_digit (a : List Char) (c : Char) :
    chrsVal (a ++ [c]) = chrsVal a * 10 + (c.toNat - 48) := by
  unfold chrsVal
  rw [List.foldl_append]
  rfl

theorem chrsVal_natChars (n : Nat) : chrsVal (natChars n) = n := by
  induction n using Nat.strong_induction_on with
  | _ n ih =>
    by_cases h10 : n < 10
    · rw [natChars_small n h10]
      unfold chrsVal
      simp [digitChar_toNat n h10]
    · rw [natChars_big n h10, chrsVal_append_digit,
        ih (n / 10) (Nat.div_lt_self (by omega) (by omega)),
        digitChar_toNat (n % 10) (Nat.mod_lt n (by omega))]
      omega

theorem natChars_inj (m n : Nat) (h : natChars m = natChars n) : m = n := by
  rw [← chrsVal_natChars m, ← chrsVal_natChars n, h]

theorem natChars_ne_nil (n : Nat) : natChars n ≠ [] := by
  by_cases h10 : n < 10
  · rw [natChars_small n h10]; simp
  · rw [natChars_big n h10]; simp

theorem digit_ne_und (c : Char) (h : isDigitChar c = true) : c ≠ '_' := by
  intro he
  rw [he] at h
  exact absurd h (by decide)

theorem digit_ne_dot (c : Char) (h : isDigitChar c = true) : c ≠ '.' := by
  intro he
  rw [he] at h
  exact absurd h (by decide)

theorem natChars_no_und (n : Nat) : '_' ∉ natChars n :=
  fun hm => digit_ne_und '_' (natChars_digits n '_' hm) rfl

theorem natChars_no_dot (n : Nat) : '.' ∉ natChars n :=
  fun hm => digit_ne_dot '.' (natChars_digits n '.' hm) rfl

/-- Split a URL path on `/`, keeping empty components. -/
def splitSlash : List Char → List (List Char)
  | [] => [[]]
  | c :: rest =>
    if c = '/' then [] :: splitSlash rest
    else
      match splitSlash rest with
      | h :: t => (c :: h) :: t
      | [] => [[c]]

/-- `PurePosixPath(path).name`: the last path component, after dropping the
empty and `"."` components that `pathlib` normalizes away (`""` when none
remain, as for `"/"`, `""` or `"/a/."`). -/
def pathName (p : List Char) : List Char :=
  (((splitSlash p).filter (fun comp => comp ≠ [] ∧ comp ≠ ['.'])).getLast?).getD []

example : pathName ("/a/b.jpg".toList) = "b.jpg".toList := by decide

example : pathName ("/a/b/".toList) = "b".toList := by decide

example : pathName ("/".toList) = [] := by decide

example : pathName ("/x/.".toList) = "x".toList := by decide

example : pathName ("/x/..".toList) = "..".toList := by decide

/-- Split a plain file name at its last dot: the part before it and the
suffix starting at the dot (`none` when there is no dot).  This is the
`name.rfind(".")` computation behind `pathlib`'s `stem`/`suffix`. -/
def extSplit : List Char → Option (List Char × List Char)
  | [] => none
  | c :: rest =>
    match extSplit rest with
    | some (s, suf) => some (c :: s, suf)
    | none => if c = '.' then some ([], '.' :: rest) else none

/-- `PurePosixPath(name).suffix`: `name[i:]` when the last dot index `i`
satisfies `0 < i < len(name) - 1`, else the empty string. -/
def pySuffix (name : List Char) : List Char :=
  match extSplit name with
  | some (s, suf) => if s ≠ [] ∧ 1 < suf.length then suf else []
  | none => []

/-- `PurePosixPath(name).stem`: `name[:i]` under the same condition on the
last dot index `i`, else the whole name. -/
def pyStem (name : List Char) : List Char :=
  match extSplit name with
  | some (s, suf) => if s ≠ [] ∧ 1 < suf.length then s else name
  | none => name

example : pyStem ("a.jpg".toList) = "a".toList ∧ pySuffix ("a.jpg".toList) = ".jpg".toList := by
  decide

example : pyStem (".bashrc".toList) = ".bashrc".toList ∧ pySuffix (".bashrc".toList) = [] := by
  decide

example : pyStem ("a.".toList) = "a.".toList ∧ pySuffix ("a.".toList) = [] := by decide

example : pySuffix ("a.tar.gz".toList) = ".gz".toList := by decide

theorem extSplit_append (name : List Char) :
    ∀ s suf, extSplit name = some (s, suf) → name = s ++ suf := by
  induction name with
  | nil => intro s suf h; simp [extSplit] at h
  | cons c rest ih =>
    intro s suf h
    cases hr : extSplit rest with
    | some p =>
      rw [show extSplit (c :: rest) = some (c :: p.1, p.2) by simp [extSplit, hr]] at h
      injection h with h1
      injection h1 with h2 h3
      subst h2; subst h3
      rw [List.cons_append, ← ih p.1 p.2 (by rw [hr])]
    | none =>
      by_cases hc : c = '.'
      · rw [show extSplit (c :: rest) = some ([], '.' :: rest) by simp [extSplit, hr, hc]] at h
        injection h with h1
        injection h1 with h2 h3
        subst hc; subst h2; subst h3
        simp
      · rw [show extSplit (c :: rest) = none by simp [extSplit, hr, hc]] at h
        simp at h

theorem extSplit_none_no_dot (l : List Char) : extSplit l = none → '.' ∉ l := by
  induction l with
  | nil => intro _ h; simp at h
  | cons c rest ih =>
    intro h hm
    cases hr : extSplit rest with
    | some p => rw [show extSplit (c :: rest) = some (c :: p.1, p.2) by simp [extSplit, hr]] at h; simp at h
    | none =>
      by_cases hc : c = '.'
      · rw [show extSplit (c :: rest) = some ([], '.' :: rest) by simp [extSplit, hr, hc]] at h
        simp at h
      · rcases List.mem_cons.mp hm with hx | hx
        · exact hc hx.symm
        · exact ih hr hx

theorem extSplit_dot_head (name : List Char) :
    ∀ s suf, extSplit name = some (s, suf) → ∃ t, suf = '.' :: t ∧ '.' ∉ t := by
  induction name with
  | nil => intro s suf h; simp [extSplit] at h
  | cons c rest ih =>
    intro s suf h
    cases hr : extSplit rest with
    | some p =>
      rw [show extSplit (c :: rest) = some (c :: p.1, p.2) by simp [extSplit, hr]] at h
      injection h with h1
      injection h1 with h2 h3
      subst h3
      exact ih p.1 p.2 (by rw [hr])
    | none =>
      by_cases hc : c = '.'
      · rw [show extSplit (c :: rest) = some ([], '.' :: rest) by simp [extSplit, hr, hc]] at h
        injection h with h1
        injection h1 with h2 h3
        subst h3
        exact ⟨rest, rfl, extSplit_none_no_dot rest hr⟩
      · rw [show extSplit (c :: rest) = none by simp [extSplit, hr, hc]] at h
        simp at h

theorem pyStem_some (name s suf : List Char) (h : extSplit name = some (s, suf)) :
    pyStem name = if s ≠ [] ∧ 1 < suf.length then s else name := by
  unfold pyStem
  rw [h]

theorem pyStem_none (name : List Char) (h : extSplit name = none) :
    pyStem name = name := by
  unfold pyStem
  rw [h]

theorem pySuffix_some (name s suf : List Char) (h : extSplit name = some (s, suf)) :
    pySuffix name = if s ≠ [] ∧ 1 < suf.length then suf else [] := by
  unfold pySuffix
  rw [h]

theorem pySuffix_none (name : List Char) (h : extSplit name = none) :
    pySuffix name = [] := by
  unfold pySuffix
  rw [h]

theorem pyStem_subset (name : List Char) : ∀ c ∈ pyStem name, c ∈ name := by
  intro c hc
  cases hE : extSplit name with
  | none => rwa [pyStem_none name hE] at hc
  | some p =>
    rw [pyStem_some name p.1 p.2 (by rw [hE])] at hc
    by_cases hcond : p.1 ≠ [] ∧ 1 < p.2.length
    · rw [if_pos hcond] at hc
      rw [extSplit_append name p.1 p.2 (by rw [hE])]
      exact List.mem_append.mpr (Or.inl hc)
    · rwa [if_neg hcond] at hc

theorem pySuffix_subset (name : List Char) : ∀ c ∈ pySuffix name, c ∈ name := by
  intro c hc
  cases hE : extSplit name with
  | none => rw [pySuffix_none name hE] at hc; simp at hc
  | some p =>
    rw [pySuffix_some name p.1 p.2 (by rw [hE])] at hc
    by_cases hcond : p.1 ≠ [] ∧ 1 < p.2.length
    · rw [if_pos hcond] at hc
      rw [extSplit_append name p.1 p.2 (by rw [hE])]
      exact List.mem_append.mpr (Or.inr hc)
    · rw [if_neg hcond] at hc; simp at hc

theorem pySuffix_shape (name : List Char) :
    pySuffix name = [] ∨ (pySuffix name).head? = some '.' := by
  cases hE : extSplit name with
  | none => exact Or.inl (pySuffix_none name hE)
  | some p =>
    rw [pySuffix_some name p.1 p.2 (by rw [hE])]
    by_cases hcond : p.1 ≠ [] ∧ 1 < p.2.length
    · rw [if_pos hcond]
      obtain ⟨t, ht, _⟩ := extSplit_dot_head name p.1 p.2 (by rw [hE])
      exact Or.inr (by rw [ht]; rfl)
    · rw [if_neg hcond]
      exact Or.inl rfl

/-- Network failures that the scripts catch per URL (`urllib.error.HTTPError`
and `urllib.error.URLError`). -/
inductive NetErr where
  | http (code : Nat)
  | net (msg : List Char)
deriving DecidableEq

/-- A destination path `target_dir / filename`. -/
structure Dest where
  dir : List Char
  file : List Char
deriving DecidableEq

/-- Filesystem effects performed by the scripts. -/
inductive FsEff where
  | mkdirp (dir : List Char)
  | write (dir : List Char) (file : List Char) (data : List Nat)
deriving DecidableEq

namespace Gbif

/-- `filename_from_url` from the GBIF script.  The input is the URL's path
component (`urllib.parse.urlparse(url).path`; the stdlib URL parser is the
model boundary): the name is the path's last component, or
`image_<index>.jpg` when that is empty. -/
def filename_from_url (path : List Char) (index : Nat) : List Char :=
  let name := pathName path
  if name = [] then "image_".toList ++ natChars index ++ ".jpg".toList else name

/-- `download_image` from the GBIF script: create the parent directory, then
fetch, then write the bytes.  The fetch outcome is supplied by the
environment; on a fetch error nothing is written. -/
def download_image (res : Except NetErr (List Nat)) (dest : Dest) :
    List FsEff × Option NetErr :=
  match res with
  | Except.ok data => ([FsEff.mkdirp dest.dir, FsEff.write dest.dir dest.file data], none)
  | Except.error e => ([FsEff.mkdirp dest.dir], some e)

/-- The download loop of `save_images_for_species`: for each URL (with
1-based `enumerate` index), derive a filename, rename on collision with
`used_names`, record the name, download (catching `HTTPError`/`URLError`
per URL and continuing).  Returns the effect trace and the assigned
destination filenames in order.  `img` gives each URL's fetch outcome and
`parsePath` is `urlparse(·).path`. -/
def saveLoop (img : List Char → Except NetErr (List Nat))
    (parsePath : List Char → List Char) (dir : List Char)
    (used : List (List Char)) (index : Nat) :
    List (List Char) → List FsEff × List (List Char)
  | [] => ([], [])
  | url :: rest =>
    let filename0 := filename_from_url (parsePath url) index
    let filename :=
      if filename0 ∈ used then
        pyStem filename0 ++ '_' :: natChars index ++
          (if pySuffix filename0 = [] then ".jpg".toList else pySuffix filename0)
      else filename0
    let next := saveLoop img parsePath dir (filename :: used) (index + 1) rest
    ((download_image (img url) ⟨dir, filename⟩).1 ++ next.1, filename :: next.2)

end Gbif

namespace Chk

/-- One element of the `images` list returned by the checklist API
(`image.get("uri")`; `none` or the empty string are skipped). -/
structure ImageRec where
  uri : Option (List Char)
deriving DecidableEq

/-- `filename_from_url` from the checklist script: like the GBIF variant but
the synthesized fallback name is `image_<index>` with no extension. -/
def filename_from_url (path : List Char) (index : Nat) : List Char :=
  let name := pathName path
  if name = [] then "image_".toList ++ natChars index else name

/-- `download_image` from the checklist script (textually the same code as
the GBIF variant). -/
def download_image (res : Except NetErr (List Nat)) (dest : Dest) :
    List FsEff × Option NetErr :=
  match res with
  | Except.ok data => ([FsEff.mkdirp dest.dir, FsEff.write dest.dir dest.file data], none)
  | Except.error e => ([FsEff.mkdirp dest.dir], some e)

/-- The download loop of the checklist script's `main`: iterates
`enumerate(images, start=1)` (skipped records still consume an index),
skips records whose `uri` is missing or empty, renames on collision
(the suffix has no `.jpg` fallback here), downloads catching errors. -/
def saveLoop (img : List Char → Except NetErr (List Nat))
    (parsePath : List Char → List Char) (dir : List Char)
    (used : List (List Char)) (index : Nat) :
    List ImageRec → List FsEff × List (List Char)
  | [] => ([], [])
  | rec :: rest =>
    match rec.uri with
    | none => saveLoop img parsePath dir used (index + 1) rest
    | some url =>
      if url = [] then saveLoop img parsePath dir used (index + 1) rest
      else
        let filename0 := filename_from_url (parsePath url) index
        let filename :=
          if filename0 ∈ used then
            pyStem filename0 ++ '_' :: natChars index ++ pySuffix filename0
          else filename0
        let next := saveLoop img parsePath dir (filename :: used) (index + 1) rest
        ((download_image (img url) ⟨dir, filename⟩).1 ++ next.1, filename :: next.2)

end Chk

example :
    (Gbif.saveLoop (fun _ => Except.error (NetErr.http 404)) (fun u => u) []
      [] 1 ["/a_3.jpg".toList, "/a.jpg".toList, "/b/a.jpg".toList]).2 =
    ["a_3.jpg".toList, "a.jpg".toList, "a_3.jpg".toList] := by decide

theorem und_split : ∀ a : List Char, '_' ∉ a → ∀ c : List Char, '_' ∉ c →
    ∀ b d : List Char, a ++ '_' :: b = c ++ '_' :: d → a = c ∧ b = d := by
  intro a
  induction a with
  | nil =>
    intro _ c hcnd b d h
    cases c with
    | nil =>
      rw [List.nil_append, List.nil_append] at h
      injection h with _ h2
      exact ⟨rfl, h2⟩
    | cons e c' =>
      rw [List.nil_append, List.cons_append] at h
      injection h with h1 _
      rw [h1] at hcnd
      exact absurd (List.mem_cons_self e c') hcnd
  | cons e a' ih =>
    intro ha c hcnd b d h
    cases c with
    | nil =>
      rw [List.nil_append, List.cons_append] at h
      injection h with h1 _
      subst h1
      exact absurd (List.mem_cons_self _ _) ha
    | cons f c' =>
      rw [List.cons_append, List.cons_append] at h
      injection h with h1 h2
      have hrec := ih (fun hm => ha (List.mem_cons_of_mem e hm)) c'
        (fun hm => hcnd (List.mem_cons_of_mem f hm)) b d h2
      exact ⟨by rw [h1, hrec.1], hrec.2⟩

theorem takeWhile_no_dot : ∀ a b : List Char, '.' ∉ a →
    (b = [] ∨ b.head? = some '.') →
    (a ++ b).takeWhile (fun c => !(c == '.')) = a := by
  intro a
  induction a with
  | nil =>
    intro b _ hb
    rcases hb with hb | hb
    · rw [hb]; rfl
    · cases b with
      | nil => rfl
      | cons x t =>
        simp only [List.head?_cons, Option.some.injEq] at hb
        subst hb
        rw [List.nil_append, List.takeWhile_cons_of_neg (by simp)]
  | cons e a' ih =>
    intro b ha hb
    have he : e ≠ '.' := fun h => ha (h ▸ List.mem_cons_self e a')
    rw [List.cons_append, List.takeWhile_cons_of_pos (by simp [he]),
      ih b (fun hm => ha (List.mem_cons_of_mem e hm)) hb]

/-- Invariant on `used_names` at 1-based loop index `i`: every used name
either contains no underscore (an original URL-derived name) or is a
collision-renamed name `stem_<j><suffix>` formed at an earlier index `j`. -/
def UsedInv (used : List (List Char)) (i : Nat) : Prop :=
  ∀ u ∈ used, ('_' ∉ u) ∨
    ∃ st j sf, j < i ∧ u = st ++ '_' :: (natChars j ++ sf) ∧
      '_' ∉ st ∧ '_' ∉ sf ∧ (sf = [] ∨ sf.head? = some '.')

theorem usedInv_nil (i : Nat) : UsedInv [] i :=
  fun u hu => absurd hu (List.not_mem_nil u)

theorem usedInv_mono (used : List (List Char)) (i : Nat) (h : UsedInv used i) :
    UsedInv used (i + 1) := by
  intro u hu
  rcases h u hu with hA | ⟨st, j, sf, hj, h1, h2, h3, h4⟩
  · exact Or.inl hA
  · exact Or.inr ⟨st, j, sf, by omega, h1, h2, h3, h4⟩

theorem usedInv_consA (used : List (List Char)) (i : Nat) (f : List Char)
    (hf : '_' ∉ f) (h : UsedInv used i) : UsedInv (f :: used) (i + 1) := by
  intro u hu
  rcases List.mem_cons.mp hu with he | hm
  · exact Or.inl (he ▸ hf)
  · exact usedInv_mono used i h u hm

theorem usedInv_consB (used : List (List Char)) (i : Nat) (st sf : List Char)
    (hst : '_' ∉ st) (hsf : '_' ∉ sf) (hsfh : sf = [] ∨ sf.head? = some '.')
    (h : UsedInv used i) :
    UsedInv ((st ++ '_' :: (natChars i ++ sf)) :: used) (i + 1) := by
  intro u hu
  rcases List.mem_cons.mp hu with he | hm
  · exact Or.inr ⟨st, i, sf, Nat.lt_succ_self i, he, hst, hsf, hsfh⟩
  · exact usedInv_mono used i h u hm

theorem renamed_fresh (used : List (List Char)) (i : Nat) (hinv : UsedInv used i)
    (st sf : List Char) (hst : '_' ∉ st)
    (hsfh : sf = [] ∨ sf.head? = some '.') :
    st ++ '_' :: (natChars i ++ sf) ∉ used := by
  intro hmem
  rcases hinv _ hmem with hA | ⟨st', j, sf', hj, hu, hst', hsf', hsfh'⟩
  · exact hA (List.mem_append.mpr (Or.inr (List.mem_cons_self _ _)))
  · have hsplit := und_split st hst st' hst' (natChars i ++ sf) (natChars j ++ sf') hu
    have h1 := takeWhile_no_dot (natChars i) sf (natChars_no_dot i) hsfh
    have h2 := takeWhile_no_dot (natChars j) sf' (natChars_no_dot j) hsfh'
    have heqd : natChars i = natChars j := by
      rw [← h1, ← h2, hsplit.2]
    exact absurd (natChars_inj i j heqd) (by omega)

/-- The filename actually assigned for a derived name `f0` at index `i`
given `used_names` (GBIF variant: missing extension defaults to `.jpg`). -/
def gbifNext (f0 : List Char) (used : List (List Char)) (i : Nat) : List Char :=
  if f0 ∈ used then
    pyStem f0 ++ '_' :: natChars i ++
      (if pySuffix f0 = [] then ".jpg".toList else pySuffix f0)
  else f0

/-- The filename actually assigned for a derived name `f0` at index `i`
given `used_names` (checklist variant: no `.jpg` fallback). -/
def chkNext (f0 : List Char) (used : List (List Char)) (i : Nat) : List Char :=
  if f0 ∈ used then pyStem f0 ++ '_' :: natChars i ++ pySuffix f0 else f0

theorem gbifNext_fresh (f0 : List Char) (used : List (List Char)) (i : Nat)
    (hinv : UsedInv used i) (hnu : '_' ∉ f0) :
    gbifNext f0 used i ∉ used ∧ UsedInv (gbifNext f0 used i :: used) (i + 1) := by
  unfold gbifNext
  by_cases hmem : f0 ∈ used
  · rw [if_pos hmem]
    have hst : '_' ∉ pyStem f0 := fun hm => hnu (pyStem_subset f0 '_' hm)
    have hsfx : (if pySuffix f0 = [] then ".jpg".toList else pySuffix f0) = [] ∨
        (if pySuffix f0 = [] then ".jpg".toList else pySuffix f0).head? = some '.' := by
      by_cases hs : pySuffix f0 = []
      · rw [if_pos hs]; exact Or.inr rfl
      · rw [if_neg hs]
        rcases pySuffix_shape f0 with h | h
        · exact absurd h hs
        · exact Or.inr h
    have hsfu : '_' ∉ (if pySuffix f0 = [] then ".jpg".toList else pySuffix f0) := by
      by_cases hs : pySuffix f0 = []
      · rw [if_pos hs]; decide
      · rw [if_neg hs]; exact fun hm => hnu (pySuffix_subset f0 '_' hm)
    have hassoc : pyStem f0 ++ '_' :: natChars i ++
        (if pySuffix f0 = [] then ".jpg".toList else pySuffix f0) =
        pyStem f0 ++ '_' ::
          (natChars i ++ (if pySuffix f0 = [] then ".jpg".toList else pySuffix f0)) := by
      rw [List.append_assoc, List.cons_append]
    rw [hassoc]
    exact ⟨renamed_fresh used i hinv (pyStem f0) _ hst hsfx,
      usedInv_consB used i (pyStem f0) _ hst hsfu hsfx hinv⟩
  · rw [if_neg hmem]
    exact ⟨hmem, usedInv_consA used i f0 hnu hinv⟩

theorem chkNext_fresh (f0 : List Char) (used : List (List Char)) (i : Nat)
    (hinv : UsedInv used i) (hnu : '_' ∉ f0) :
    chkNext f0 used i ∉ used ∧ UsedInv (chkNext f0 used i :: used) (i + 1) := by
  unfold chkNext
  by_cases hmem : f0 ∈ used
  · rw [if_pos hmem]
    have hst : '_' ∉ pyStem f0 := fun hm => hnu (pyStem_subset f0 '_' hm)
    have hsfu : '_' ∉ pySuffix f0 := fun hm => hnu (pySuffix_subset f0 '_' hm)
    have hassoc : pyStem f0 ++ '_' :: natChars i ++ pySuffix f0 =
        pyStem f0 ++ '_' :: (natChars i ++ pySuffix f0) := by
      rw [List.append_assoc, List.cons_append]
    rw [hassoc]
    exact ⟨renamed_fresh used i hinv (pyStem f0) _ hst (pySuffix_shape f0),
      usedInv_consB used i (pyStem f0) _ hst hsfu (pySuffix_shape f0) hinv⟩
  · rw [if_neg hmem]
    exact ⟨hmem, usedInv_consA used i f0 hnu hinv⟩

theorem gbif_names_fresh : ∀ (urls : List (List Char))
    (img : List Char → Except NetErr (List Nat)) (pp : List Char → List Char)
    (dir : List Char) (used : List (List Char)) (i : Nat),
    UsedInv used i →
    (∀ u ∈ urls, pathName (pp u) ≠ [] ∧ '_' ∉ pathName (pp u)) →
    (∀ x ∈ (Gbif.saveLoop img pp dir used i urls).2, x ∉ used) ∧
      ((Gbif.saveLoop img pp dir used i urls).2).Nodup := by
  intro urls
  induction urls with
  | nil =>
    intro img pp dir used i _ _
    exact ⟨fun x hx => absurd hx (List.not_mem_nil x), List.nodup_nil⟩
  | cons url rest ih =>
    intro img pp dir used i hinv hurls
    obtain ⟨hne, hnu⟩ := hurls url (List.mem_cons_self url rest)
    have hf0 : Gbif.filename_from_url (pp url) i = pathName (pp url) := by
      unfold Gbif.filename_from_url
      rw [if_neg hne]
    have hstep : (Gbif.saveLoop img pp dir used i (url :: rest)).2 =
        gbifNext (Gbif.filename_from_url (pp url) i) used i ::
          (Gbif.saveLoop img pp dir
            (gbifNext (Gbif.filename_from_url (pp url) i) used i :: used)
            (i + 1) rest).2 := rfl
    rw [hstep, hf0]
    obtain ⟨hfresh, hinv'⟩ :=
      gbifNext_fresh (pathName (pp url)) used i hinv hnu
    obtain ⟨ihA, ihB⟩ := ih img pp dir
      (gbifNext (pathName (pp url)) used i :: used) (i + 1) hinv'
      (fun u hu => hurls u (List.mem_cons_of_mem url hu))
    constructor
    · intro x hx
      rcases List.mem_cons.mp hx with he | hm
      · exact he ▸ hfresh
      · exact fun hx' => ihA x hm (List.mem_cons_of_mem _ hx')
    · refine List.Nodup.cons ?_ ihB
      intro hmem
      exact ihA _ hmem (List.mem_cons_self _ _)


theorem chk_names_fresh : ∀ (imgs : List Chk.ImageRec)
    (img : List Char → Except NetErr (List Nat)) (pp : List Char → List Char)
    (dir : List Char) (used : List (List Char)) (i : Nat),
    UsedInv used i →
    (∀ r ∈ imgs, ∀ u, r.uri = some u → u ≠ [] →
      pathName (pp u) ≠ [] ∧ '_' ∉ pathName (pp u)) →
    (∀ x ∈ (Chk.saveLoop img pp dir used i imgs).2, x ∉ used) ∧
      ((Chk.saveLoop img pp dir used i imgs).2).Nodup := by
  intro imgs
  induction imgs with
  | nil =>
    intro img pp dir used i _ _
    exact ⟨fun x hx => absurd hx (List.not_mem_nil x), List.nodup_nil⟩
  | cons r rest ih =>
    intro img pp dir used i hinv hurls
    have hrest : ∀ q ∈ rest, ∀ u, q.uri = some u → u ≠ [] →
        pathName (pp u) ≠ [] ∧ '_' ∉ pathName (pp u) :=
      fun q hq => hurls q (List.mem_cons_of_mem r hq)
    obtain ⟨uri⟩ := r
    cases uri with
    | none =>
      have hstep : (Chk.saveLoop img pp dir used i (Chk.ImageRec.mk none :: rest)).2 =
          (Chk.saveLoop img pp dir used (i + 1) rest).2 := rfl
      rw [hstep]
      exact ih img pp dir used (i + 1) (usedInv_mono used i hinv) hrest
    | some url =>
      by_cases hurl : url = []
      · subst hurl
        have hstep : (Chk.saveLoop img pp dir used i (Chk.ImageRec.mk (some []) :: rest)).2 =
            (Chk.saveLoop img pp dir used (i + 1) rest).2 := rfl
        rw [hstep]
        exact ih img pp dir used (i + 1) (usedInv_mono used i hinv) hrest
      · obtain ⟨hne, hnu⟩ :=
          hurls (Chk.ImageRec.mk (some url)) (List.mem_cons_self _ rest) url rfl hurl
        have hf0 : Chk.filename_from_url (pp url) i = pathName (pp url) := by
          unfold Chk.filename_from_url
          rw [if_neg hne]
        have hstep : (Chk.saveLoop img pp dir used i (Chk.ImageRec.mk (some url) :: rest)).2 =
            if url = [] then (Chk.saveLoop img pp dir used (i + 1) rest).2
            else chkNext (Chk.filename_from_url (pp url) i) used i ::
              (Chk.saveLoop img pp dir
                (chkNext (Chk.filename_from_url (pp url) i) used i :: used)
                (i + 1) rest).2 := by
          rw [show (Chk.saveLoop img pp dir used i (Chk.ImageRec.mk (some url) :: rest)) =
            if url = [] then Chk.saveLoop img pp dir used (i + 1) rest
            else ((Chk.download_image (img url)
                ⟨dir, chkNext (Chk.filename_from_url (pp url) i) used i⟩).1 ++
              (Chk.saveLoop img pp dir
                (chkNext (Chk.filename_from_url (pp url) i) used i :: used)
                (i + 1) rest).1,
              chkNext (Chk.filename_from_url (pp url) i) used i ::
                (Chk.saveLoop img pp dir
                  (chkNext (Chk.filename_from_url (pp url) i) used i :: used)
                  (i + 1) rest).2) from rfl]
          rw [apply_ite Prod.snd]
        rw [hstep, if_neg hurl, hf0]
        obtain ⟨hfresh, hinv'⟩ :=
          chkNext_fresh (pathName (pp url)) used i hinv hnu
        obtain ⟨ihA, ihB⟩ := ih img pp dir
          (chkNext (pathName (pp url)) used i :: used) (i + 1) hinv' hrest
        constructor
        · intro x hx
          rcases List.mem_cons.mp hx with he | hm
          · exact he ▸ hfresh
          · exact fun hx' => ihA x hm (List.mem_cons_of_mem _ hx')
        · refine List.Nodup.cons ?_ ihB
          intro hmem
          exact ihA _ hmem (List.mem_cons_self _ _)

/-- C1 counterexample: in one species run over the three distinct URLs
`/a_3.jpg`, `/a.jpg`, `/b/a.jpg`, the downloader assigns the filenames
`a_3.jpg`, `a.jpg`, `a_3.jpg`: the collision rename of the third URL
(`a` + `_3` + `.jpg`) coincides with the first URL's original filename,
because the renamed name is never re-checked against `used_names`. -/
theorem C1_counterexample_filename_collision :
    (Gbif.saveLoop (fun _ => Except.error (NetErr.http 404)) (fun u => u) []
        [] 1 ["/a_3.jpg".toList, "/a.jpg".toList, "/b/a.jpg".toList]).2 =
      ["a_3.jpg".toList, "a.jpg".toList, "a_3.jpg".toList] ∧
    ¬ ((Gbif.saveLoop (fun _ => Except.error (NetErr.http 404)) (fun u => u) []
        [] 1 ["/a_3.jpg".toList, "/a.jpg".toList, "/b/a.jpg".toList]).2).Nodup := by
  constructor <;> decide

/-- C1 amended: the destination filenames assigned within one species run
are pairwise distinct provided every processed URL's last path component is
non-empty and contains no underscore character (in general, a collision
rename `stem_<index><ext>` can coincide with another URL's original
filename that already ends in `_<index>` before the extension).  This holds
for both scripts' download loops. -/
theorem C1_amended_filenames_distinct
    (img : List Char → Except NetErr (List Nat)) (pp : List Char → List Char)
    (dir : List Char) (urls : List (List Char)) (imgs : List Chk.ImageRec)
    (hg : ∀ u ∈ urls, pathName (pp u) ≠ [] ∧ '_' ∉ pathName (pp u))
    (hk : ∀ r ∈ imgs, ∀ u, r.uri = some u → u ≠ [] →
      pathName (pp u) ≠ [] ∧ '_' ∉ pathName (pp u)) :
    ((Gbif.saveLoop img pp dir [] 1 urls).2).Nodup ∧
      ((Chk.saveLoop img pp dir [] 1 imgs).2).Nodup :=
  ⟨(gbif_names_fresh urls img pp dir [] 1 (usedInv_nil 1) hg).2,
   (chk_names_fresh imgs img pp dir [] 1 (usedInv_nil 1) hk).2⟩

/-- Witness for `C1_amended_filenames_distinct` on concrete runs with
colliding base names but no underscores. -/
theorem C1_amended_filenames_distinct_witness :
    (∀ u ∈ ["/a.jpg".toList, "/b/a.jpg".toList],
      pathName u ≠ [] ∧ '_' ∉ pathName u) ∧
    ((Gbif.saveLoop (fun _ => Except.error (NetErr.http 404)) (fun u => u) []
        [] 1 ["/a.jpg".toList, "/b/a.jpg".toList]).2).Nodup ∧
    ((Chk.saveLoop (fun _ => Except.error (NetErr.http 404)) (fun u => u) []
        [] 1 [Chk.ImageRec.mk (some "/x/c.png".toList), Chk.ImageRec.mk none,
              Chk.ImageRec.mk (some "/y/c.png".toList)]).2).Nodup :=
  ⟨by decide,
   (C1_amended_filenames_distinct (fun _ => Except.error (NetErr.http 404))
      (fun u => u) [] ["/a.jpg".toList, "/b/a.jpg".toList]
      [Chk.ImageRec.mk (some "/x/c.png".toList), Chk.ImageRec.mk none,
       Chk.ImageRec.mk (some "/y/c.png".toList)]
      (by decide) (by decide)).1,
   (C1_amended_filenames_distinct (fun _ => Except.error (NetErr.http 404))
      (fun u => u) [] ["/a.jpg".toList, "/b/a.jpg".toList]
      [Chk.ImageRec.mk (some "/x/c.png".toList), Chk.ImageRec.mk none,
       Chk.ImageRec.mk (some "/y/c.png".toList)]
      (by decide) (by decide)).2⟩

/-- C9: when the HTTP fetch for a URL fails, `download_image` has already
created the destination's parent directory but performs no write (the
destination file is neither created nor modified), it surfaces the caught
error, and the enclosing per-species download loop continues with the
remaining URLs.  The checklist script's `download_image` is the same code. -/
theorem C9_failed_fetch_no_write
    (img : List Char → Except NetErr (List Nat)) (pp : List Char → List Char)
    (dir : List Char) (used : List (List Char)) (i : Nat)
    (url : List Char) (rest : List (List Char)) (e : NetErr)
    (dest : Dest) (he : img url = Except.error e) :
    (Gbif.download_image (img url) dest).1 = [FsEff.mkdirp dest.dir] ∧
    (∀ d f data, FsEff.write d f data ∉ (Gbif.download_image (img url) dest).1) ∧
    (Gbif.download_image (img url) dest).2 = some e ∧
    (Chk.download_image (img url) dest).1 = [FsEff.mkdirp dest.dir] ∧
    (Gbif.saveLoop img pp dir used i (url :: rest)).1 =
      FsEff.mkdirp dir ::
        (Gbif.saveLoop img pp dir
          (gbifNext (Gbif.filename_from_url (pp url) i) used i :: used)
          (i + 1) rest).1 ∧
    (Gbif.saveLoop img pp dir used i (url :: rest)).2 =
      gbifNext (Gbif.filename_from_url (pp url) i) used i ::
        (Gbif.saveLoop img pp dir
          (gbifNext (Gbif.filename_from_url (pp url) i) used i :: used)
          (i + 1) rest).2 := by
  refine ⟨by rw [he]; rfl, ?_, by rw [he]; rfl, by rw [he]; rfl, ?_, rfl⟩
  · intro d f data hm
    rw [he] at hm
    simp [Gbif.download_image] at hm
  · have hstep : (Gbif.saveLoop img pp dir used i (url :: rest)).1 =
        (Gbif.download_image (img url)
          ⟨dir, gbifNext (Gbif.filename_from_url (pp url) i) used i⟩).1 ++
        (Gbif.saveLoop img pp dir
          (gbifNext (Gbif.filename_from_url (pp url) i) used i :: used)
          (i + 1) rest).1 := rfl
    rw [hstep, he]
    rfl

/-- Witness for `C9_failed_fetch_no_write` on a concrete failing fetch. -/
theorem C9_failed_fetch_no_write_witness :
    ((fun _ : List Char =>
        (Except.error (NetErr.http 404) : Except NetErr (List Nat)))
      ("/a.jpg".toList) = Except.error (NetErr.http 404)) ∧
    (Gbif.download_image
      ((fun _ : List Char =>
          (Except.error (NetErr.http 404) : Except NetErr (List Nat)))
        ("/a.jpg".toList))
      ⟨"d".toList, "a.jpg".toList⟩).1 = [FsEff.mkdirp "d".toList] :=
  ⟨rfl,
   (C9_failed_fetch_no_write
      (fun _ => Except.error (NetErr.http 404)) (fun u => u) ("d".toList) [] 1
      ("/a.jpg".toList) ["/b.png".toList] (NetErr.http 404)
      ⟨"d".toList, "a.jpg".toList⟩ rfl).1⟩

namespace Gbif

/-- One media entry of an occurrence record (the `identifier` and
`references` fields the script reads). -/
structure Media where
  identifier : Option (List Char)
  references : Option (List Char)
deriving DecidableEq

/-- One occurrence record; `media` models `record.get("media", []) or []`. -/
structure Record where
  media : List Media
deriving DecidableEq

/-- One page of `/occurrence/search` output: the `results` list and the
backend-reported total `count`. -/
structure Page where
  results : List Record
  count : Nat
deriving DecidableEq

/-- `url = media.get("identifier") or media.get("references")` followed by
`if not url: continue`: Python `or` falls through on `None` and on the empty
string, and a falsy final value is skipped. -/
def mediaUrl (m : Media) : Option (List Char) :=
  match m.identifier with
  | some u =>
    if u ≠ [] then some u
    else
      match m.references with
      | some v => if v ≠ [] then some v else none
      | none => none
  | none =>
    match m.references with
    | some v => if v ≠ [] then some v else none
    | none => none

/-- The inner `for media in record["media"]` loop of `fetch_media_urls`:
state is `(urls, seen)`; fresh non-falsy URLs are appended to both; the
returned flag is the `break` taken when `len(urls) >= limit` right after an
append. -/
def procMedia (limit : Nat) : List Media → List (List Char) × List (List Char) →
    (List (List Char) × List (List Char)) × Bool
  | [], st => (st, false)
  | m :: ms, st =>
    match mediaUrl m with
    | none => procMedia limit ms st
    | some u =>
      if u ∈ st.2 then procMedia limit ms st
      else
        let st' := (st.1 ++ [u], st.2 ++ [u])
        if limit ≤ st'.1.length then (st', true)
        else procMedia limit ms st'

/-- The `for record in results` loop with its own `break` when the inner
loop hit the limit. -/
def procRecords (limit : Nat) : List Record → List (List Char) × List (List Char) →
    (List (List Char) × List (List Char)) × Bool
  | [], st => (st, false)
  | r :: rs, st =>
    let res := procMedia limit r.media st
    if res.2 then (res.1, true)
    else procRecords limit rs res.1

/-- The paging `while len(urls) < limit` loop of `fetch_media_urls` with
explicit fuel (the Python loop's termination depends on backend behaviour;
every property below holds for every fuel).  `f` maps an offset to the
backend's response page; the loop stops on an empty page, on reaching the
reported count, or when the limit is reached. -/
def fetchLoop (f : Nat → Page) (limit : Nat) : Nat →
    List (List Char) → List (List Char) → Nat → List (List Char)
  | 0, urls, _, _ => urls
  | fuel + 1, urls, seen, offset =>
    if urls.length < limit then
      if (f offset).results = [] then urls
      else
        let res := procRecords limit (f offset).results (urls, seen)
        if (f offset).count ≤ offset + (f offset).results.length then res.1.1
        else fetchLoop f limit fuel res.1.1 res.1.2 (offset + (f offset).results.length)
    else urls

/-- `fetch_media_urls(taxon_key, limit)` against backend `f` (the taxon key
and fixed page size are folded into `f`). -/
def fetch_media_urls (f : Nat → Page) (limit fuel : Nat) : List (List Char) :=
  fetchLoop f limit fuel [] [] 0

end Gbif

theorem procMedia_none (limit : Nat) (m : Gbif.Media) (ms : List Gbif.Media)
    (st : List (List Char) × List (List Char)) (hu : Gbif.mediaUrl m = none) :
    Gbif.procMedia limit (m :: ms) st = Gbif.procMedia limit ms st := by
  simp only [Gbif.procMedia, hu]

theorem procMedia_dup (limit : Nat) (m : Gbif.Media) (ms : List Gbif.Media)
    (st : List (List Char) × List (List Char)) (u : List Char)
    (hu : Gbif.mediaUrl m = some u) (hmem : u ∈ st.2) :
    Gbif.procMedia limit (m :: ms) st = Gbif.procMedia limit ms st := by
  simp only [Gbif.procMedia, hu, if_pos hmem]

theorem procMedia_fresh_full (limit : Nat) (m : Gbif.Media) (ms : List Gbif.Media)
    (st : List (List Char) × List (List Char)) (u : List Char)
    (hu : Gbif.mediaUrl m = some u) (hmem : u ∉ st.2)
    (hfull : limit ≤ (st.1 ++ [u]).length) :
    Gbif.procMedia limit (m :: ms) st = ((st.1 ++ [u], st.2 ++ [u]), true) := by
  simp only [Gbif.procMedia, hu, if_neg hmem, if_pos hfull]

theorem procMedia_fresh_go (limit : Nat) (m : Gbif.Media) (ms : List Gbif.Media)
    (st : List (List Char) × List (List Char)) (u : List Char)
    (hu : Gbif.mediaUrl m = some u) (hmem : u ∉ st.2)
    (hfull : ¬ limit ≤ (st.1 ++ [u]).length) :
    Gbif.procMedia limit (m :: ms) st =
      Gbif.procMedia limit ms (st.1 ++ [u], st.2 ++ [u]) := by
  simp only [Gbif.procMedia, hu, if_neg hmem, if_neg hfull]

theorem procMedia_inv (limit : Nat) : ∀ (ms : List Gbif.Media)
    (st : List (List Char) × List (List Char)),
    st.2 = st.1 → st.1.Nodup → st.1.length < limit →
    ((Gbif.procMedia limit ms st).1.2 = (Gbif.procMedia limit ms st).1.1) ∧
    (Gbif.procMedia limit ms st).1.1.Nodup ∧
    (Gbif.procMedia limit ms st).1.1.length ≤ limit ∧
    ((Gbif.procMedia limit ms st).2 = false →
      (Gbif.procMedia limit ms st).1.1.length < limit) := by
  intro ms
  induction ms with
  | nil =>
    intro st hseen hnd hlt
    exact ⟨hseen, hnd, Nat.le_of_lt hlt, fun _ => hlt⟩
  | cons m ms ih =>
    intro st hseen hnd hlt
    cases hu : Gbif.mediaUrl m with
    | none =>
      rw [procMedia_none limit m ms st hu]
      exact ih st hseen hnd hlt
    | some u =>
      by_cases hmem : u ∈ st.2
      · rw [procMedia_dup limit m ms st u hu hmem]
        exact ih st hseen hnd hlt
      · have hnd' : (st.1 ++ [u]).Nodup := by
          rw [List.nodup_append]
          refine ⟨hnd, List.nodup_singleton u, ?_⟩
          intro x hx hx'
          rw [List.mem_singleton] at hx'
          exact hmem (hx' ▸ hseen ▸ hx)
        by_cases hfull : limit ≤ (st.1 ++ [u]).length
        · rw [procMedia_fresh_full limit m ms st u hu hmem hfull]
          refine ⟨by rw [hseen], hnd', ?_, fun h => by simp at h⟩
          simp only [List.length_append, List.length_singleton] at hfull ⊢
          omega
        · rw [procMedia_fresh_go limit m ms st u hu hmem hfull]
          refine ih (st.1 ++ [u], st.2 ++ [u]) (by rw [hseen]) hnd' ?_
          simp only [List.length_append, List.length_singleton] at hfull ⊢
          omega

theorem procRecords_cons (limit : Nat) (r : Gbif.Record) (rs : List Gbif.Record)
    (st : List (List Char) × List (List Char)) :
    Gbif.procRecords limit (r :: rs) st =
      if (Gbif.procMedia limit r.media st).2 then
        ((Gbif.procMedia limit r.media st).1, true)
      else Gbif.procRecords limit rs (Gbif.procMedia limit r.media st).1 := by
  simp only [Gbif.procRecords]

theorem procRecords_inv (limit : Nat) : ∀ (rs : List Gbif.Record)
    (st : List (List Char) × List (List Char)),
    st.2 = st.1 → st.1.Nodup → st.1.length < limit →
    ((Gbif.procRecords limit rs st).1.2 = (Gbif.procRecords limit rs st).1.1) ∧
    (Gbif.procRecords limit rs st).1.1.Nodup ∧
    (Gbif.procRecords limit rs st).1.1.length ≤ limit ∧
    ((Gbif.procRecords limit rs st).2 = false →
      (Gbif.procRecords limit rs st).1.1.length < limit) := by
  intro rs
  induction rs with
  | nil =>
    intro st hseen hnd hlt
    exact ⟨hseen, hnd, Nat.le_of_lt hlt, fun _ => hlt⟩
  | cons r rs ih =>
    intro st hseen hnd hlt
    obtain ⟨h1, h2, h3, h4⟩ := procMedia_inv limit r.media st hseen hnd hlt
    rw [procRecords_cons]
    cases hres : (Gbif.procMedia limit r.media st).2 with
    | true =>
      rw [if_pos rfl]
      exact ⟨h1, h2, h3, fun h => by simp at h⟩
    | false =>
      rw [if_neg (by simp)]
      exact ih (Gbif.procMedia limit r.media st).1 h1 h2 (h4 hres)

theorem fetchLoop_succ (f : Nat → Gbif.Page) (limit fuel : Nat)
    (urls seen : List (List Char)) (off : Nat) :
    Gbif.fetchLoop f limit (fuel + 1) urls seen off =
      if urls.length < limit then
        if (f off).results = [] then urls
        else
          if (f off).count ≤ off + (f off).results.length then
            (Gbif.procRecords limit (f off).results (urls, seen)).1.1
          else
            Gbif.fetchLoop f limit fuel
              (Gbif.procRecords limit (f off).results (urls, seen)).1.1
              (Gbif.procRecords limit (f off).results (urls, seen)).1.2
              (off + (f off).results.length)
      else urls := by
  simp only [Gbif.fetchLoop]

theorem fetchLoop_inv (f : Nat → Gbif.Page) (limit : Nat) : ∀ (fuel : Nat)
    (urls seen : List (List Char)) (off : Nat),
    seen = urls → urls.Nodup → urls.length ≤ limit →
    (Gbif.fetchLoop f limit fuel urls seen off).Nodup ∧
    (Gbif.fetchLoop f limit fuel urls seen off).length ≤ limit := by
  intro fuel
  induction fuel with
  | zero => intro urls seen off _ hnd hle; exact ⟨hnd, hle⟩
  | succ fuel ih =>
    intro urls seen off hseen hnd hle
    rw [fetchLoop_succ]
    by_cases hlt : urls.length < limit
    · rw [if_pos hlt]
      by_cases hres : (f off).results = []
      · rw [if_pos hres]; exact ⟨hnd, hle⟩
      · rw [if_neg hres]
        obtain ⟨h1, h2, h3, _⟩ :=
          procRecords_inv limit (f off).results (urls, seen) hseen hnd hlt
        by_cases hcnt : (f off).count ≤ off + (f off).results.length
        · rw [if_pos hcnt]; exact ⟨h2, h3⟩
        · rw [if_neg hcnt]
          exact ih _ _ _ h1 h2 h3
    · rw [if_neg hlt]; exact ⟨hnd, hle⟩

theorem procMedia_append_of_hit (limit : Nat) : ∀ (ms1 ms2 : List Gbif.Media)
    (st : List (List Char) × List (List Char)),
    (Gbif.procMedia limit ms1 st).2 = true →
    Gbif.procMedia limit (ms1 ++ ms2) st = Gbif.procMedia limit ms1 st := by
  intro ms1
  induction ms1 with
  | nil => intro ms2 st h; simp [Gbif.procMedia] at h
  | cons m ms1 ih =>
    intro ms2 st h
    cases hu : Gbif.mediaUrl m with
    | none =>
      rw [procMedia_none limit m ms1 st hu] at h
      rw [List.cons_append, procMedia_none limit m (ms1 ++ ms2) st hu,
        procMedia_none limit m ms1 st hu]
      exact ih ms2 st h
    | some u =>
      by_cases hmem : u ∈ st.2
      · rw [procMedia_dup limit m ms1 st u hu hmem] at h
        rw [List.cons_append, procMedia_dup limit m (ms1 ++ ms2) st u hu hmem,
          procMedia_dup limit m ms1 st u hu hmem]
        exact ih ms2 st h
      · by_cases hfull : limit ≤ (st.1 ++ [u]).length
        · rw [List.cons_append, procMedia_fresh_full limit m (ms1 ++ ms2) st u hu hmem hfull,
            procMedia_fresh_full limit m ms1 st u hu hmem hfull]
        · rw [procMedia_fresh_go limit m ms1 st u hu hmem hfull] at h
          rw [List.cons_append, procMedia_fresh_go limit m (ms1 ++ ms2) st u hu hmem hfull,
            procMedia_fresh_go limit m ms1 st u hu hmem hfull]
          exact ih ms2 _ h

theorem procRecords_append_of_hit (limit : Nat) : ∀ (rs1 rs2 : List Gbif.Record)
    (st : List (List Char) × List (List Char)),
    (Gbif.procRecords limit rs1 st).2 = true →
    Gbif.procRecords limit (rs1 ++ rs2) st = Gbif.procRecords limit rs1 st := by
  intro rs1
  induction rs1 with
  | nil => intro rs2 st h; simp [Gbif.procRecords] at h
  | cons r rs1 ih =>
    intro rs2 st h
    rw [procRecords_cons] at h
    rw [List.cons_append, procRecords_cons, procRecords_cons]
    cases hres : (Gbif.procMedia limit r.media st).2 with
    | true =>
      rw [if_pos rfl, if_pos rfl]
    | false =>
      rw [if_neg (by simp [hres])] at h
      rw [if_neg (by simp), if_neg (by simp)]
      exact ih rs2 _ h

theorem fetchLoop_stop (f : Nat → Gbif.Page) (limit : Nat) :
    ∀ (fuel : Nat) (urls seen : List (List Char)) (off : Nat),
    limit ≤ urls.length → Gbif.fetchLoop f limit fuel urls seen off = urls := by
  intro fuel
  cases fuel with
  | zero => intro urls seen off _; rfl
  | succ fuel =>
    intro urls seen off h
    rw [fetchLoop_succ, if_neg (by omega)]

/-- C4: for every backend, target count and fuel, `fetch_media_urls` returns
at most `limit` URLs with no duplicates, and collection stops as soon as the
limit is reached: once the inner media loop reports the limit hit, the rest
of the record's media and the rest of the page's records are ignored, and a
loop state that has already reached the limit fetches no further page. -/
theorem C4_fetch_media_urls_bounded_unique (f : Nat → Gbif.Page) (limit fuel : Nat) :
    (Gbif.fetch_media_urls f limit fuel).length ≤ limit ∧
    (Gbif.fetch_media_urls f limit fuel).Nodup ∧
    (∀ ms1 ms2 st, (Gbif.procMedia limit ms1 st).2 = true →
      Gbif.procMedia limit (ms1 ++ ms2) st = Gbif.procMedia limit ms1 st) ∧
    (∀ rs1 rs2 st, (Gbif.procRecords limit rs1 st).2 = true →
      Gbif.procRecords limit (rs1 ++ rs2) st = Gbif.procRecords limit rs1 st) ∧
    (∀ fuel2 urls seen off, limit ≤ urls.length →
      Gbif.fetchLoop f limit fuel2 urls seen off = urls) := by
  obtain ⟨hnd, hle⟩ := fetchLoop_inv f limit fuel [] [] 0 rfl List.nodup_nil (by simp)
  exact ⟨hle, hnd, procMedia_append_of_hit limit, procRecords_append_of_hit limit,
    fun fuel2 urls seen off h => fetchLoop_stop f limit fuel2 urls seen off h⟩

/-- Witness for `C4_fetch_media_urls_bounded_unique` at a concrete backend,
limit 2, and a mid-page limit hit. -/
theorem C4_fetch_media_urls_bounded_unique_witness :
    (Gbif.fetch_media_urls (fun _ => Gbif.Page.mk [] 0) 2 3).length ≤ 2 ∧
    (Gbif.procMedia 2
      [Gbif.Media.mk (some "u1".toList) none, Gbif.Media.mk (some "u2".toList) none]
      ([], [])).2 = true ∧
    Gbif.procMedia 2
      ([Gbif.Media.mk (some "u1".toList) none, Gbif.Media.mk (some "u2".toList) none] ++
        [Gbif.Media.mk (some "u3".toList) none]) ([], []) =
      Gbif.procMedia 2
        [Gbif.Media.mk (some "u1".toList) none, Gbif.Media.mk (some "u2".toList) none]
        ([], []) ∧
    Gbif.fetchLoop (fun _ => Gbif.Page.mk [] 0) 2 5
      ["a".toList, "b".toList] ["a".toList, "b".toList] 0 = ["a".toList, "b".toList] :=
  ⟨(C4_fetch_media_urls_bounded_unique (fun _ => Gbif.Page.mk [] 0) 2 3).1,
   by decide,
   (C4_fetch_media_urls_bounded_unique (fun _ => Gbif.Page.mk [] 0) 2 3).2.2.1
     [Gbif.Media.mk (some "u1".toList) none, Gbif.Media.mk (some "u2".toList) none]
     [Gbif.Media.mk (some "u3".toList) none] ([], []) (by decide),
   (C4_fetch_media_urls_bounded_unique (fun _ => Gbif.Page.mk [] 0) 2 3).2.2.2.2
     5 ["a".toList, "b".toList] ["a".toList, "b".toList] 0 (by decide)⟩

namespace Gbif

/-- The curated species list of `download_gbif_mushroom_images.py`. -/
def SPECIES_NAMES : List (List Char) :=
  ["Psilocybe semilanceata".toList,
   "Psilocybe cyanescens".toList,
   "Panaeolus cinctulus".toList,
   "Amanita pantherina".toList,
   "Amanita muscaria".toList,
   "Psilocybe strictipes".toList,
   "Panaeolina foenisecii".toList,
   "Panaeolus papilionaceus".toList,
   "Panaeolus semiovatus".toList,
   "Panaeolus acuminatus".toList,
   "Panaeolus subfirmus".toList,
   "Amanita excelsa (syn. Amanita spissa)".toList,
   "Amanita rubescens".toList,
   "Amanita caesarea".toList,
   "Amanita regalis".toList]

/-- `IMAGES_PER_SPECIES`. -/
def IMAGES_PER_SPECIES : Nat := 25

/-- `OUTPUT_ROOT`. -/
def OUTPUT_ROOT : List Char := "gbif_images".toList

/-- A matched GBIF taxon. -/
structure SpeciesMatch where
  key : Nat
  scientific_name : List Char

/-- The JSON fields of one `/species/match` response that the script reads. -/
structure MatchPayload where
  acceptedUsageKey : Option Nat
  usageKey : Option Nat
  matchType : Option (List Char)
  scientificName : Option (List Char)

end Gbif

/-- Python `a or b` for optional numbers: falls through on `None` and `0`. -/
def pyOrKey (a b : Option Nat) : Option Nat :=
  match a with
  | some n => if n ≠ 0 then some n else b
  | none => b

/-- Python `a or b` for an optional string against a string default. -/
def pyOrStr (a : Option (List Char)) (b : List Char) : List Char :=
  match a with
  | some s => if s ≠ [] then s else b
  | none => b

namespace Gbif

/-- The acceptance test `match_type and match_type.upper() != "NONE"`. -/
def matchTypeOk (mt : Option (List Char)) : Bool :=
  match mt with
  | some s => s ≠ [] && upperStr s ≠ "NONE".toList
  | none => false

/-- The candidate loop of `match_species`: query each candidate in order and
return on the first payload with a truthy key and an acceptable match type. -/
def matchFirst (q : List Char → MatchPayload) : List (List Char) → Option SpeciesMatch
  | [] => none
  | cand :: rest =>
    let payload := q cand
    match pyOrKey payload.acceptedUsageKey payload.usageKey with
    | some k =>
      if k ≠ 0 ∧ matchTypeOk payload.matchType then
        some ⟨k, pyOrStr payload.scientificName cand⟩
      else matchFirst q rest
    | none => matchFirst q rest

/-- `match_species`: resolve a label to a GBIF taxon through its candidate
names; `q` is the `/species/match` backend. -/
def match_species (q : List Char → MatchPayload) (name : List Char) :
    Option SpeciesMatch :=
  matchFirst q (parse_candidate_names name)

/-- The external world of the GBIF script: the match endpoint, the
occurrence pages per taxon key, the image fetches, and `urlparse(·).path`. -/
structure Env where
  matchQ : List Char → MatchPayload
  pages : Nat → Nat → Page
  img : List Char → Except NetErr (List Nat)
  urlpath : List Char → List Char

/-- `save_images_for_species`: resolve (returning `False` when the species
is unresolvable), then list media and download each URL; download errors are
caught inside `saveLoop`, so a resolved species always returns `True`. -/
def save_images_for_species (env : Env) (fuel : Nat) (species : List Char) :
    Bool × List FsEff :=
  match match_species env.matchQ species with
  | none => (false, [])
  | some m =>
    let urls := fetch_media_urls (env.pages m.key) IMAGES_PER_SPECIES fuel
    if urls = [] then (true, [])
    else
      (true,
        (saveLoop env.img env.urlpath (OUTPUT_ROOT ++ '/' :: slugify m.scientific_name)
          [] 1 urls).1)

/-- The species loop of `main`: collect unresolved species (in order) and
the filesystem effects. -/
def mainAcc (env : Env) (fuel : Nat) : List (List Char) → List (List Char) × List FsEff
  | [] => ([], [])
  | s :: rest =>
    let res := save_images_for_species env fuel s
    let acc := mainAcc env fuel rest
    (if res.1 then acc.1 else s :: acc.1, res.2 ++ acc.2)

/-- `main`: exit status 1 when any species failed to resolve, else 0. -/
def main (env : Env) (fuel : Nat) : Nat :=
  if (mainAcc env fuel SPECIES_NAMES).1 ≠ [] then 1 else 0

end Gbif

namespace Chk

/-- The species list of `download_species_images.py` (same labels). -/
def SPECIES_NAMES : List (List Char) := Gbif.SPECIES_NAMES

/-- `OUTPUT_ROOT`. -/
def OUTPUT_ROOT : List Char := "species_images".toList

/-- The JSON fields of one `/taxa` result row that the script reads. -/
structure TaxonItem where
  _id : Option Nat
  FullName : List Char
  accepted_id : Option Nat

/-- A resolved taxon entry (`TaxonMatch` dataclass). -/
structure TaxonMatch where
  id : Option Nat
  full_name : List Char
  accepted_id : Option Nat

/-- `effective_id`: `self.accepted_id or self.id`. -/
def TaxonMatch.effective_id (t : TaxonMatch) : Option Nat :=
  pyOrKey t.accepted_id t.id

/-- The loop body of `_select_best_match`: return the first case-insensitive
exact name match, else remember the first row seen. -/
def selectLoop (candLower : List Char) (best : Option TaxonMatch) :
    List TaxonItem → Option TaxonMatch
  | [] => best
  | item :: rest =>
    let m := TaxonMatch.mk item._id item.FullName (pyOrKey item.accepted_id item._id)
    if lowerStr item.FullName = candLower then some m
    else
      selectLoop candLower
        (match best with
         | none => some m
         | some b => some b) rest

/-- `_select_best_match`. -/
def _select_best_match (results : List TaxonItem) (candidate : List Char) :
    Option TaxonMatch :=
  selectLoop (lowerStr candidate) none results

/-- One resolution pass of `resolve_taxon`: try candidates in order with the
given query. -/
def resolvePass (q : List Char → List TaxonItem) : List (List Char) → Option TaxonMatch
  | [] => none
  | cand :: rest =>
    match _select_best_match (q cand) cand with
    | some m => some m
    | none => resolvePass q rest

/-- `resolve_taxon`: exact-name pass over all candidates, then a `like`
substring pass. -/
def resolve_taxon (exactQ likeQ : List Char → List TaxonItem) (name : List Char) :
    Option TaxonMatch :=
  let candidates := parse_candidate_names name
  match resolvePass exactQ candidates with
  | some m => some m
  | none => resolvePass likeQ candidates

/-- The external world of the checklist script. -/
structure Env where
  exactQ : List Char → List TaxonItem
  likeQ : List Char → List TaxonItem
  images : Option Nat → List ImageRec
  img : List Char → Except NetErr (List Nat)
  urlpath : List Char → List Char

/-- The species loop of the checklist `main`: collect unresolved species
(in order) and the filesystem effects; empty image lists are skipped,
download errors are caught inside `saveLoop`. -/
def mainAcc (env : Env) : List (List Char) → List (List Char) × List FsEff
  | [] => ([], [])
  | s :: rest =>
    let acc := mainAcc env rest
    match resolve_taxon env.exactQ env.likeQ s with
    | none => (s :: acc.1, acc.2)
    | some t =>
      let imgs := env.images t.effective_id
      if imgs = [] then (acc.1, acc.2)
      else
        ((acc.1 : List (List Char)),
          (saveLoop env.img env.urlpath (OUTPUT_ROOT ++ '/' :: slugify t.full_name)
            [] 1 imgs).1 ++ acc.2)

/-- `main`: exit status 1 when any species failed to resolve, else 0. -/
def main (env : Env) : Nat :=
  if (mainAcc env SPECIES_NAMES).1 ≠ [] then 1 else 0

end Chk

theorem save_success_iff (env : Gbif.Env) (fuel : Nat) (s : List Char) :
    (Gbif.save_images_for_species env fuel s).1 = true ↔
      (Gbif.match_species env.matchQ s).isSome = true := by
  cases hm : Gbif.match_species env.matchQ s with
  | none => simp [Gbif.save_images_for_species, hm]
  | some m =>
    simp only [Gbif.save_images_for_species, hm, Option.isSome_some]
    constructor
    · intro _; trivial
    · intro _
      split <;> rfl

theorem gbif_mainAcc_failures (env : Gbif.Env) (fuel : Nat) : ∀ names : List (List Char),
    (Gbif.mainAcc env fuel names).1 =
      names.filter (fun s => !(Gbif.save_images_for_species env fuel s).1) := by
  intro names
  induction names with
  | nil => rfl
  | cons s rest ih =>
    simp only [Gbif.mainAcc, List.filter_cons]
    cases hres : (Gbif.save_images_for_species env fuel s).1 with
    | true => simpa using ih
    | false => simpa using ih

theorem chk_mainAcc_failures (env : Chk.Env) : ∀ names : List (List Char),
    (Chk.mainAcc env names).1 =
      names.filter (fun s => (Chk.resolve_taxon env.exactQ env.likeQ s).isNone) := by
  intro names
  induction names with
  | nil => rfl
  | cons s rest ih =>
    simp only [Chk.mainAcc, List.filter_cons]
    cases hres : Chk.resolve_taxon env.exactQ env.likeQ s with
    | none => simpa using ih
    | some t =>
      simp only [Option.isNone_some, Bool.false_eq_true, if_false]
      split <;> simpa using ih

theorem exit_flag_iff (l : List (List Char)) (p : List Char → Bool) :
    ((if l.filter p ≠ [] then (1 : Nat) else 0) = 0 ↔ ∀ s ∈ l, p s = false) ∧
    ((if l.filter p ≠ [] then (1 : Nat) else 0) = 1 ↔ ∃ s ∈ l, p s = true) := by
  by_cases h : l.filter p = []
  · rw [if_neg (by simp [h])]
    constructor
    · constructor
      · intro _ s hs
        have := List.filter_eq_nil_iff.mp h s hs
        cases hx : p s
        · rfl
        · exact absurd hx this
      · intro _; rfl
    · constructor
      · intro h01; exact absurd h01 (by omega)
      · rintro ⟨s, hs, hp⟩
        have := List.filter_eq_nil_iff.mp h s hs
        exact absurd hp this
  · rw [if_pos h]
    constructor
    · constructor
      · intro h10; exact absurd h10 (by omega)
      · intro hall
        refine absurd ?_ h
        rw [List.filter_eq_nil_iff]
        intro s hs hp
        rw [hall s hs] at hp
        exact absurd hp (by simp)
    · constructor
      · intro _
        cases hf : l.filter p with
        | nil => exact absurd hf h
        | cons x t =>
          have hx : x ∈ l.filter p := by rw [hf]; exact List.mem_cons_self x t
          rw [List.mem_filter] at hx
          exact ⟨x, hx.1, hx.2⟩
      · intro _; rfl

/-- C6: both drivers exit with status 0 exactly when every species in the
fixed list resolves to a taxon — regardless of the media listing, image
availability, or download outcomes, which the environment quantifies over —
and with status 1 exactly when at least one species fails to resolve. -/
theorem C6_exit_status_resolution (genv : Gbif.Env) (fuel : Nat) (cenv : Chk.Env) :
    (Gbif.main genv fuel = 0 ↔
      ∀ s ∈ Gbif.SPECIES_NAMES, (Gbif.match_species genv.matchQ s).isSome = true) ∧
    (Gbif.main genv fuel = 1 ↔
      ∃ s ∈ Gbif.SPECIES_NAMES, Gbif.match_species genv.matchQ s = none) ∧
    (Chk.main cenv = 0 ↔
      ∀ s ∈ Chk.SPECIES_NAMES,
        (Chk.resolve_taxon cenv.exactQ cenv.likeQ s).isSome = true) ∧
    (Chk.main cenv = 1 ↔
      ∃ s ∈ Chk.SPECIES_NAMES, Chk.resolve_taxon cenv.exactQ cenv.likeQ s = none) := by
  have hg := gbif_mainAcc_failures genv fuel Gbif.SPECIES_NAMES
  have hk := chk_mainAcc_failures cenv Chk.SPECIES_NAMES
  have hge := exit_flag_iff Gbif.SPECIES_NAMES
    (fun s => !(Gbif.save_images_for_species genv fuel s).1)
  have hke := exit_flag_iff Chk.SPECIES_NAMES
    (fun s => (Chk.resolve_taxon cenv.exactQ cenv.likeQ s).isNone)
  refine ⟨?_, ?_, ?_, ?_⟩
  · unfold Gbif.main
    rw [hg, hge.1]
    constructor
    · intro h s hs
      have hb := h s hs
      have hsv : (Gbif.save_images_for_species genv fuel s).1 = true := by
        cases hx : (Gbif.save_images_for_species genv fuel s).1
        · rw [hx] at hb; simp at hb
        · rfl
      exact (save_success_iff genv fuel s).mp hsv
    · intro h s hs
      have := (save_success_iff genv fuel s).mpr (h s hs)
      simp [this]
  · unfold Gbif.main
    rw [hg, hge.2]
    constructor
    · rintro ⟨s, hs, hb⟩
      refine ⟨s, hs, ?_⟩
      simp only [Bool.not_eq_eq_eq_not, Bool.not_true] at hb
      cases hm : Gbif.match_species genv.matchQ s with
      | none => rfl
      | some m =>
        have : (Gbif.save_images_for_species genv fuel s).1 = true :=
          (save_success_iff genv fuel s).mpr (by simp [hm])
        rw [this] at hb
        simp at hb
    · rintro ⟨s, hs, hm⟩
      refine ⟨s, hs, ?_⟩
      have : ¬ (Gbif.save_images_for_species genv fuel s).1 = true := by
        intro hx
        have := (save_success_iff genv fuel s).mp hx
        rw [hm] at this
        simp at this
      cases hx : (Gbif.save_images_for_species genv fuel s).1
      · rfl
      · exact absurd hx this
  · unfold Chk.main
    rw [hk, hke.1]
    constructor
    · intro h s hs
      have hb := h s hs
      rw [Option.isNone_eq_false_iff] at hb
      exact hb
    · intro h s hs
      have := h s hs
      rw [Option.isNone_eq_false_iff]
      exact this
  · unfold Chk.main
    rw [hk, hke.2]
    constructor
    · rintro ⟨s, hs, hb⟩
      exact ⟨s, hs, Option.isNone_iff_eq_none.mp hb⟩
    · rintro ⟨s, hs, hm⟩
      exact ⟨s, hs, Option.isNone_iff_eq_none.mpr hm⟩
